import Mathlib

/-!
Paillier range proof (threshold-lib, `crypto/paillier` and `crypto/bitvec`).

A shallow embedding of `bitvec.go`, `range_proof.go` and `range_proof_ni.go`.

* `*big.Int` values are mathematical integers (`Int`); `big.Int.Div` and
  `big.Int.Mod` are Euclidean, as are `/` and `%` on `Int`.
* A Go run-time panic is an `Except.error`; a returned Go `error` is a value.
* A `*big.Int` variable that is used as a method receiver is an `Option Int`,
  `none` being the nil pointer.
* Random draws are inputs (`Draws`); SHA-256 is a function parameter.
* A key is the value of its modulus. Where the source compares two keys with
  `!=` (method `Verify`) it compares the pointers held by their fields `N`;
  there the two addresses are arguments next to the keys.
* A repetition count `errorFactor` and a slice index are natural numbers.
* The three protocol functions that call `EncryptWithChosenRandomness` are
  written once with the encryption routine as an argument (`...With`); the
  source's functions are these at `EncryptWithChosenRandomness`.
-/

set_option autoImplicit false

deriving instance DecidableEq for Except

/-- Run-time panics of the Go code that the embedding keeps apart. -/
inductive GoPanic
  | nilDereference
  | divisionByZero
  | indexOutOfRange
  deriving DecidableEq, Repr

/-- A Go computation: it panics or it returns. -/
abbrev Go (α : Type) := Except GoPanic α

/-- Slice indexing `xs[i]`, which panics when `i` is out of range. -/
def index {α : Type} (xs : List α) (i : Nat) : Go α :=
  match xs[i]? with
  | some x => pure x
  | none => throw GoPanic.indexOutOfRange

/-- The loop `for i := 0; i < n; i++ { out[i] = f(i) }`: the bodies run in
order and the first panic ends the loop. -/
def goFor {α : Type} (f : Nat → Go α) : Nat → Go (List α)
  | 0 => pure []
  | n + 1 => do
    let xs ← goFor f n
    let x ← f n
    pure (xs ++ [x])

/-! ## `crypto/bitvec` -/

namespace bitvec

/-- The Go type `BitVec []uint32`: a list of words, each below `2 ^ 32`. -/
abbrev BitVec := List Nat

/-- Function `ReverseBits` (`bits.Reverse8`): the byte with its eight bits in
reversed order. -/
def ReverseBits (b : Nat) : Nat :=
  (b / 1 % 2) * 128 + (b / 2 % 2) * 64 + (b / 4 % 2) * 32 + (b / 8 % 2) * 16 +
  (b / 16 % 2) * 8 + (b / 32 % 2) * 4 + (b / 64 % 2) * 2 + (b / 128 % 2) * 1

/-- The inner loops of `NewBitVecFromBytes`:
`accumulator |= uint32(ReverseBits(b)) << (j * 8)` for the bytes in order,
starting at position `j`. -/
def packFrom : List Nat → Nat → Nat → Nat
  | [], _, acc => acc
  | b :: bs, j, acc => packFrom bs (j + 1) (acc ||| (ReverseBits b <<< (j * 8)) % 2 ^ 32)

/-- Function `NewBitVecFromBytes`: four bit-reversed bytes a word, then one
more word for one to three trailing bytes. -/
def NewBitVecFromBytes (bytes : List Nat) : BitVec :=
  let completeWords := bytes.length / 4
  let extraBytes := bytes.length % 4
  let full := (List.range completeWords).map fun i => packFrom ((bytes.drop (i * 4)).take 4) 0 0
  if extraBytes > 0 then full ++ [packFrom (bytes.drop (completeWords * 4)) 0 0] else full

/-- Method `GetBit`: bit `index % 32` of word `index / 32`; the word access
panics when out of range. -/
def GetBit (b : BitVec) (i : Nat) : Go Bool := do
  let pos := i / 32
  let j := i % 32
  let w ← index b pos
  pure ((w &&& (1 <<< j) % 2 ^ 32) != 0)

/-- Method `SetBit`: the vector with bit `index` set or cleared. -/
def SetBit (b : BitVec) (i : Nat) (value : Bool) : Go BitVec := do
  let pos := i / 32
  let j := i % 32
  let w ← index b pos
  if value then
    pure (b.set pos (w ||| (1 <<< j) % 2 ^ 32))
  else
    pure (b.set pos (w &&& (2 ^ 32 - 1 - (1 <<< j) % 2 ^ 32)))

/-- Method `Len`. -/
def Len (b : BitVec) : Nat := 32 * b.length

end bitvec

/-! ## `crypto/paillier` -/

namespace paillier

/-- Modelled from the spec: the `PublicKey` type is declared outside the three
source files; the spec gives it as an immutable modulus `N` with its square
`N²` and equality by value. This is the value of a key. In the source the field
`N` is a `*big.Int` (`ek.N` is appended to a `[]*big.Int` and passed to
`big.Int` methods); the address that the field holds is an argument of its own
where the source looks at it, in `Verify`. -/
structure PublicKey where
  N : Int
  deriving DecidableEq, Repr

/-- Modelled from the spec: method `n2` of the key, the square of the modulus. -/
def PublicKey.n2 (ek : PublicKey) : Int := ek.N * ek.N

/-! ### `math/big` methods, with the receiver made explicit -/

/-- Reading through a `*big.Int`: a nil pointer panics. -/
def deref (p : Option Int) : Go Int :=
  match p with
  | some v => pure v
  | none => throw GoPanic.nilDereference

/-- The value `big.Int.Exp` leaves in its receiver (old content `z`), after the
package documentation: `x**y mod |m|`; for `m = 0` it is `x**y`, or `1` when
`y ≤ 0`; for `m ≠ 0` and `y < 0` it is the power of the inverse of `x`, and the
receiver keeps its content when `x` has no inverse. -/
def expValue (z x y m : Int) : Int :=
  if m = 0 then
    if y ≤ 0 then 1 else x ^ y.toNat
  else if y < 0 then
    if Int.gcd x m = 1 then (Int.gcdA (x % |m|) |m| % |m|) ^ (-y).toNat % |m| else z
  else x ^ y.toNat % |m|

/-- Method `z.Exp(x, y, m)`: the new content of the receiver `z`. (Where `Exp`
gives up before it touches a nil receiver, for `y < 0` and `x` without inverse,
the next statement of the caller, `ekN.Mul`, meets a nil receiver in the same
way.) -/
def bigExp (z : Option Int) (x y m : Int) : Go Int := do
  let z0 ← deref z
  pure (expValue z0 x y m)

/-- Method `z.Mul(x, y)`. -/
def bigMul (z : Option Int) (x y : Int) : Go Int := do
  let _ ← deref z
  pure (x * y)

/-- Method `z.Add(x, y)`. -/
def bigAdd (z : Option Int) (x y : Int) : Go Int := do
  let _ ← deref z
  pure (x + y)

/-- Method `z.Mod(x, y)`: Euclidean modulus, a panic for `y = 0`. -/
def bigMod (z : Option Int) (x y : Int) : Go Int := do
  let _ ← deref z
  if y = 0 then throw GoPanic.divisionByZero else pure (x % y)

/-- The zero value `new(big.Int)` as a receiver. -/
def newInt : Option Int := some 0

/-! ### `range_proof.go` -/

/-- The body of `EncryptWithChosenRandomness`, with the initial content `init`
of the five local variables `rn, gm, c, ekN, temp` left open. -/
def EncryptWithChosenRandomnessFrom (init : Option Int) (ek : PublicKey) (m r : Int) : Go Int := do
  let rn := init
  let gm := init
  let c := init
  let ekN := init
  let temp := init
  let nn := ek.n2
  -- Compute rn = r^ek.n mod ek.nn
  let rn ← bigExp rn r ek.N nn
  -- Compute gm = (m * ek.n + 1) mod ek.nn
  let ekN ← bigMul ekN m ek.N
  let temp ← bigAdd temp ekN 1
  let gm ← bigMod gm temp nn
  -- Compute c = (gm * rn) mod ek.nn
  let temp ← bigMul (some temp) gm rn
  let c ← bigMod c temp nn
  pure c

/-- Function `EncryptWithChosenRandomness` as the source has it: the line
`var rn, gm, c, ekN, temp *big.Int` declares five nil pointers, and the
statements that follow use them as receivers. -/
def EncryptWithChosenRandomness (ek : PublicKey) (m r : Int) : Go Int :=
  EncryptWithChosenRandomnessFrom none ek m r

/-- The same body with the five variables allocated (`new(big.Int)`): what the
three comments of the function say it computes. -/
def encryptAllocated (ek : PublicKey) (m r : Int) : Go Int :=
  EncryptWithChosenRandomnessFrom newInt ek m r

/-- The encryption formula in the spec's words:
`Enc(key, m, r) = ((1 + m·N) mod N²) · r^N mod N²`. -/
def encFormula (N m r : Int) : Int :=
  ((1 + m * N) % N ^ 2) * (r ^ N.toNat % N ^ 2) % N ^ 2

/-- Type `DataRandomnessPairs`. -/
structure DataRandomnessPairs where
  W1 : List Int
  W2 : List Int
  R1 : List Int
  R2 : List Int
  deriving DecidableEq, Repr

/-- Type `EncryptedPairs`. -/
structure EncryptedPairs where
  C1 : List Int
  C2 : List Int
  deriving DecidableEq, Repr

/-- Type `Open`. -/
structure Open where
  W1 : Int
  R1 : Int
  W2 : Int
  R2 : Int
  deriving DecidableEq, Repr

/-- Type `Mask`; `J` is a `uint8`. -/
structure Mask where
  J : Nat
  MaskedX : Int
  MaskedR : Int
  deriving DecidableEq, Repr

/-- Type `Response`: two pointers, each of which may be nil. -/
structure Response where
  Open : Option Open
  Mask : Option Mask
  deriving DecidableEq, Repr

/-- Type `Proof`. -/
structure Proof where
  Responses : List Response
  deriving DecidableEq, Repr

/-- A returned Go `error` value: one made by `errors.New`, or the struct
`RangeProofError`. -/
inductive GoError
  | errorsNew (msg : String)
  | RangeProofError
  deriving DecidableEq, Repr

/-- Modelled from the spec: the random sources are outside the three source
files (`crypto.RandomNum`, "`randomBelow(bound)` -> integer in `[0, bound)`",
and the coin `rand.Intn(2)`); the outcome of every draw is an input, indexed
by the repetition. -/
structure Draws where
  w2 : Nat → Int
  coin : Nat → Nat
  r1 : Nat → Int
  r2 : Nat → Int

/-- The draws are outcomes the random sources can give at `errorFactor`
repetitions: `w2` in `[0, difference)`, the coin in `{0, 1}`, `r1` and `r2` in
`[0, N)`. -/
def Draws.Valid (rnd : Draws) (ek : PublicKey) (rangeVal : Int) (errorFactor : Nat) : Prop :=
  ∀ i, i < errorFactor →
    (0 ≤ rnd.w2 i ∧ rnd.w2 i < 2 * (rangeVal / 3) - rangeVal / 3) ∧ rnd.coin i < 2 ∧
    (0 ≤ rnd.r1 i ∧ rnd.r1 i < ek.N) ∧ (0 ≤ rnd.r2 i ∧ rnd.r2 i < ek.N)

/-- First loop of `GenerateEncryptedPairs`, repetition `i`: the pair
`(w1[i], w2[i])` after the swap. -/
def drawW (rnd : Draws) (rangeScaledThird : Int) (i : Nat) : Int × Int :=
  let w2 := rnd.w2 i
  let w1 := rangeScaledThird + w2
  if rnd.coin i = 0 then (w2, w1) else (w1, w2)

/-- Method `GenerateEncryptedPairs`, the encryption routine being the argument
`enc`. The slice length `errorFactor` is a natural number. -/
def GenerateEncryptedPairsWith (enc : PublicKey → Int → Int → Go Int) (rnd : Draws)
    (ek : PublicKey) (rangeVal : Int) (errorFactor : Nat) :
    Go (EncryptedPairs × DataRandomnessPairs) := do
  let rangeScaledThird := rangeVal / 3
  let w1 := (List.range errorFactor).map fun i => (drawW rnd rangeScaledThird i).1
  let w2 := (List.range errorFactor).map fun i => (drawW rnd rangeScaledThird i).2
  let r1 := (List.range errorFactor).map rnd.r1
  let r2 := (List.range errorFactor).map rnd.r2
  let c ← goFor (fun i => do
    let c1i ← enc ek (drawW rnd rangeScaledThird i).1 (rnd.r1 i)
    let c2i ← enc ek (drawW rnd rangeScaledThird i).2 (rnd.r2 i)
    pure (c1i, c2i)) errorFactor
  pure ({ C1 := c.map Prod.fst, C2 := c.map Prod.snd }, { W1 := w1, W2 := w2, R1 := r1, R2 := r2 })

/-- Method `GenerateEncryptedPairs` as the source has it. -/
def GenerateEncryptedPairs (rnd : Draws) (ek : PublicKey) (rangeVal : Int) (errorFactor : Nat) :
    Go (EncryptedPairs × DataRandomnessPairs) :=
  GenerateEncryptedPairsWith EncryptWithChosenRandomness rnd ek rangeVal errorFactor

/-- Body of the loop of `GenerateProof` for repetition `i`. -/
def proofResponse (ek : PublicKey) (secretX secretR : Int) (bitsOfE : bitvec.BitVec)
    (rangeScaledThird rangeScaledTwoThirds : Int) (data : DataRandomnessPairs) (i : Nat) :
    Go Response := do
  let ei ← bitvec.GetBit bitsOfE i
  if !ei then
    let w1 ← index data.W1 i
    let r1 ← index data.R1 i
    let w2 ← index data.W2 i
    let r2 ← index data.R2 i
    pure { Open := some { W1 := w1, R1 := r1, W2 := w2, R2 := r2 }, Mask := none }
  else
    let secretXPlusW1 := secretX + (← index data.W1 i)
    let secretXPlusW2 := secretX + (← index data.W2 i)
    if secretXPlusW1 > rangeScaledThird ∧ secretXPlusW1 < rangeScaledTwoThirds then
      let r1 ← index data.R1 i
      let maskedR ← bigMod newInt (secretR * r1) ek.N
      pure { Open := none, Mask := some { J := 1, MaskedX := secretXPlusW1, MaskedR := maskedR } }
    else
      let r2 ← index data.R2 i
      let maskedR ← bigMod newInt (secretR * r2) ek.N
      pure { Open := none, Mask := some { J := 2, MaskedX := secretXPlusW2, MaskedR := maskedR } }

/-- Method `GenerateProof`. -/
def GenerateProof (ek : PublicKey) (secretX secretR : Int) (e : List Nat) (rangeVal : Int)
    (data : DataRandomnessPairs) (errorFactor : Nat) : Go Proof := do
  let rangeScaledThird := rangeVal / 3
  let rangeScaledTwoThirds := 2 * rangeScaledThird
  let bitsOfE := bitvec.NewBitVecFromBytes e
  let responses ← goFor
    (proofResponse ek secretX secretR bitsOfE rangeScaledThird rangeScaledTwoThirds data) errorFactor
  pure { Responses := responses }

/-- Body of the first loop of `VerifierOutput` for repetition `i`: the value
stored in `verifications[i]`. The operator `&&` evaluates its right operand
only when the left one is true. -/
def verifyRepetition (enc : PublicKey → Int → Int → Go Int) (ek : PublicKey)
    (bitsOfE : bitvec.BitVec) (encryptedPairs : EncryptedPairs) (proof : Proof)
    (rangeScaledThird rangeScaledTwoThirds cipherX : Int) (i : Nat) : Go Bool := do
  let ei ← bitvec.GetBit bitsOfE i
  let response ← index proof.Responses i
  if !ei then
    match response.Open with
    | none => pure false
    | some o =>
      let expectedC1i ← enc ek o.W1 o.R1
      let expectedC2i ← enc ek o.W2 o.R2
      let c1i ← index encryptedPairs.C1 i
      let res ← if expectedC1i = c1i then do
          let c2i ← index encryptedPairs.C2 i
          pure (decide (expectedC2i = c2i))
        else pure false
      let flag := decide (o.W1 < rangeScaledThird) && decide (o.W2 > rangeScaledThird)
        && decide (o.W2 < rangeScaledTwoThirds)
      let flag := flag || (decide (o.W2 < rangeScaledThird) && decide (o.W1 > rangeScaledThird)
        && decide (o.W1 < rangeScaledTwoThirds))
      pure (res && flag)
  else
    match response.Mask with
    | none => pure false
    | some mk =>
      let cJ ← if mk.J = 1 then index encryptedPairs.C1 i else index encryptedPairs.C2 i
      let c ← bigMod newInt (cJ * cipherX) ek.n2
      let encZi ← enc ek mk.MaskedX mk.MaskedR
      let res := decide (c = encZi)
      pure (res && decide (mk.MaskedX > rangeScaledThird)
        && decide (mk.MaskedX < rangeScaledTwoThirds))

/-- Method `VerifierOutput`, the encryption routine being the argument `enc`:
`none` is the nil error. -/
def VerifierOutputWith (enc : PublicKey → Int → Int → Go Int) (ek : PublicKey) (e : List Nat)
    (encryptedPairs : EncryptedPairs) (proof : Proof) (rangeVal cipherX : Int)
    (errorFactor : Nat) : Go (Option GoError) := do
  let rangeScaledThird := rangeVal / 3
  let rangeScaledTwoThirds := 2 * rangeScaledThird
  let bitsOfE := bitvec.NewBitVecFromBytes e
  let verifications ← goFor
    (verifyRepetition enc ek bitsOfE encryptedPairs proof rangeScaledThird rangeScaledTwoThirds
      cipherX) errorFactor
  if verifications.all id then pure none
  else pure (some (GoError.errorsNew "CorrectKeyProofError"))

/-- Method `VerifierOutput` as the source has it. -/
def VerifierOutput (ek : PublicKey) (e : List Nat) (encryptedPairs : EncryptedPairs)
    (proof : Proof) (rangeVal cipherX : Int) (errorFactor : Nat) : Go (Option GoError) :=
  VerifierOutputWith EncryptWithChosenRandomness ek e encryptedPairs proof rangeVal cipherX
    errorFactor

/-! ### `range_proof_ni.go` -/

/-- Constant `SECURITY_PARAMETER`. -/
def SECURITY_PARAMETER : Nat := 128

/-- Type `RangeProofNi`. -/
structure RangeProofNi where
  Ek : PublicKey
  RangeVal : Int
  Ciphertext : Int
  EncryptedPairs : EncryptedPairs
  Proof : Proof
  ErrorFactor : Nat
  deriving DecidableEq, Repr

/-- Auxiliary for `bigBytes`: the base-256 digits of `n` put in front of `acc`,
most significant first; `fuel` bounds the number of digits. -/
def bytesAux : Nat → Nat → List Nat → List Nat
  | 0, _, acc => acc
  | fuel + 1, n, acc => if n = 0 then acc else bytesAux fuel (n / 256) (n % 256 :: acc)

/-- Method `big.Int.Bytes`: the big-endian bytes of the absolute value, none
for zero. -/
def bigBytes (v : Int) : List Nat := bytesAux v.natAbs v.natAbs []

/-- Function `ComputeDigest`; `sha256` is the hash of the written bytes. -/
def ComputeDigest (sha256 : List Nat → List Nat) (values : List Int) : List Nat :=
  sha256 (values.foldl (fun written value => written ++ bigBytes value) [])

/-- Method `VerifySelf`, the encryption routine being the argument `enc`. -/
def VerifySelfWith (enc : PublicKey → Int → Int → Go Int) (sha256 : List Nat → List Nat)
    (rpn : RangeProofNi) : Go (Option GoError) := do
  let vec := [rpn.Ek.N] ++ rpn.EncryptedPairs.C1 ++ rpn.EncryptedPairs.C2
  let e := ComputeDigest sha256 vec
  let err ← VerifierOutputWith enc rpn.Ek e rpn.EncryptedPairs rpn.Proof rpn.RangeVal
    rpn.Ciphertext rpn.ErrorFactor
  if err ≠ none then pure (some GoError.RangeProofError) else pure none

/-- Method `VerifySelf` as the source has it. -/
def VerifySelf (sha256 : List Nat → List Nat) (rpn : RangeProofNi) : Go (Option GoError) :=
  VerifySelfWith EncryptWithChosenRandomness sha256 rpn

/-- Method `Verify`, the encryption routine being the argument `enc`. The
test `ek != rpn.Ek` is Go's comparison of two structs, field by field, and the
field `N` holds a `*big.Int`: it compares the two pointers, not the integers
behind them. `rpnEkN` is the address held by `rpn.Ek.N` and `ekN` the address
held by `ek.N`. The ciphertexts are compared with `Cmp`, by value. -/
def VerifyWith (enc : PublicKey → Int → Int → Go Int) (sha256 : List Nat → List Nat)
    (rpn : RangeProofNi) (rpnEkN : Nat) (_ek : PublicKey) (ekN : Nat) (ciphertext : Int) :
    Go (Option GoError) :=
  if ekN ≠ rpnEkN then pure (some (GoError.errorsNew "EncryptionKey mismatch"))
  else if ciphertext ≠ rpn.Ciphertext then pure (some (GoError.errorsNew "Ciphertext mismatch"))
  else VerifySelfWith enc sha256 rpn

/-- Method `Verify` as the source has it. -/
def Verify (sha256 : List Nat → List Nat) (rpn : RangeProofNi) (rpnEkN : Nat) (ek : PublicKey)
    (ekN : Nat) (ciphertext : Int) : Go (Option GoError) :=
  VerifyWith EncryptWithChosenRandomness sha256 rpn rpnEkN ek ekN ciphertext

/-- Function `Prove`, the encryption routine being the argument `enc`: the
transcript and the (always nil) error. -/
def ProveWith (enc : PublicKey → Int → Int → Go Int) (sha256 : List Nat → List Nat)
    (rnd : Draws) (ek : PublicKey) (rangeVal ciphertext secretX secretR : Int) :
    Go (RangeProofNi × Option GoError) := do
  let (encryptedPairs, dataRandomnessPairs) ←
    GenerateEncryptedPairsWith enc rnd ek rangeVal SECURITY_PARAMETER
  let vec := [ek.N] ++ encryptedPairs.C1 ++ encryptedPairs.C2
  let e := ComputeDigest sha256 vec
  let proof ← GenerateProof ek secretX secretR e rangeVal dataRandomnessPairs SECURITY_PARAMETER
  pure ({ Ek := ek, RangeVal := rangeVal, Ciphertext := ciphertext,
          EncryptedPairs := encryptedPairs, Proof := proof,
          ErrorFactor := SECURITY_PARAMETER }, none)

/-- Function `Prove` as the source has it. -/
def Prove (sha256 : List Nat → List Nat) (rnd : Draws) (ek : PublicKey)
    (rangeVal ciphertext secretX secretR : Int) : Go (RangeProofNi × Option GoError) :=
  ProveWith EncryptWithChosenRandomness sha256 rnd ek rangeVal ciphertext secretX secretR

end paillier

/-! ### Closed forms of an honest run -/

namespace bitvec

/-- Bit `i` of a bit vector, read as zero beyond its last word: the value
`GetBit` returns when the word exists. -/
def bitAt (b : BitVec) (i : Nat) : Bool :=
  (b.getD (i / 32) 0 &&& (1 <<< (i % 32)) % 2 ^ 32) != 0

end bitvec

namespace paillier

/-- An encryption routine that meets the documented contract for the key `ek`:
it returns the value of the formula. -/
def MeetsContract (enc : PublicKey → Int → Int → Go Int) (ek : PublicKey) : Prop :=
  ∀ m r, enc ek m r = Except.ok (encFormula ek.N m r)

/-- The retained data of `GenerateEncryptedPairs`, as lists over the
repetitions. -/
def honestData (rnd : Draws) (rangeVal : Int) (n : Nat) : DataRandomnessPairs :=
  { W1 := (List.range n).map fun i => (drawW rnd (rangeVal / 3) i).1
    W2 := (List.range n).map fun i => (drawW rnd (rangeVal / 3) i).2
    R1 := (List.range n).map rnd.r1
    R2 := (List.range n).map rnd.r2 }

/-- The pairs of `GenerateEncryptedPairs` when every encryption returns the
value of the formula. -/
def honestPairs (rnd : Draws) (ek : PublicKey) (rangeVal : Int) (n : Nat) : EncryptedPairs :=
  { C1 := (List.range n).map fun i => encFormula ek.N (drawW rnd (rangeVal / 3) i).1 (rnd.r1 i)
    C2 := (List.range n).map fun i => encFormula ek.N (drawW rnd (rangeVal / 3) i).2 (rnd.r2 i) }

/-- The response `GenerateProof` builds at repetition `i` from the retained
data, for challenge bit `b`. -/
def honestResponse (rnd : Draws) (ek : PublicKey) (rangeVal secretX secretR : Int) (b : Bool)
    (i : Nat) : Response :=
  if !b then
    { Open := some { W1 := (drawW rnd (rangeVal / 3) i).1, R1 := rnd.r1 i,
                     W2 := (drawW rnd (rangeVal / 3) i).2, R2 := rnd.r2 i }
      Mask := none }
  else if secretX + (drawW rnd (rangeVal / 3) i).1 > rangeVal / 3 ∧
      secretX + (drawW rnd (rangeVal / 3) i).1 < 2 * (rangeVal / 3) then
    { Open := none
      Mask := some { J := 1, MaskedX := secretX + (drawW rnd (rangeVal / 3) i).1,
                     MaskedR := secretR * rnd.r1 i % ek.N } }
  else
    { Open := none
      Mask := some { J := 2, MaskedX := secretX + (drawW rnd (rangeVal / 3) i).2,
                     MaskedR := secretR * rnd.r2 i % ek.N } }

/-- The proof `GenerateProof` builds from the retained data. -/
def honestProof (rnd : Draws) (ek : PublicKey) (rangeVal secretX secretR : Int) (e : List Nat)
    (n : Nat) : Proof :=
  { Responses := (List.range n).map fun i =>
      honestResponse rnd ek rangeVal secretX secretR
        (bitvec.bitAt (bitvec.NewBitVecFromBytes e) i) i }

end paillier

namespace paillier

/-- The verdict of the verifier on the honest response of repetition `i`, for
challenge bit `b`: an opened pair passes when the drawn `w2` is positive, a
masked value when one of the two candidates is strictly inside the interval. -/
def honestVerdict (rnd : Draws) (rangeVal secretX : Int) (b : Bool) (i : Nat) : Bool :=
  if !b then decide (0 < rnd.w2 i)
  else decide
    ((rangeVal / 3 < secretX + (drawW rnd (rangeVal / 3) i).1 ∧
        secretX + (drawW rnd (rangeVal / 3) i).1 < 2 * (rangeVal / 3)) ∨
     (rangeVal / 3 < secretX + (drawW rnd (rangeVal / 3) i).2 ∧
        secretX + (drawW rnd (rangeVal / 3) i).2 < 2 * (rangeVal / 3)))

end paillier

namespace paillier

/-- Draws of the concrete runs below: `w2[i] = 1`, a swap at even `i`,
`r1[i] = 2` and `r2[i] = 3`. -/
def sampleDraws : Draws :=
  { w2 := fun _ => 1, coin := fun i => i % 2, r1 := fun _ => 2, r2 := fun _ => 3 }

end paillier

namespace bitvec

/-- The byte read from the eight bits `8 * k, ..., 8 * k + 7` of a bit vector,
the lowest index being the lowest bit. -/
def readByte (b : BitVec) (k : Nat) : Nat :=
  (bitAt b (8 * k)).toNat * 1 + (bitAt b (8 * k + 1)).toNat * 2 +
  (bitAt b (8 * k + 2)).toNat * 4 + (bitAt b (8 * k + 3)).toNat * 8 +
  (bitAt b (8 * k + 4)).toNat * 16 + (bitAt b (8 * k + 5)).toNat * 32 +
  (bitAt b (8 * k + 6)).toNat * 64 + (bitAt b (8 * k + 7)).toNat * 128

end bitvec

namespace paillier

/-- A stand-in for SHA-256 in the concrete runs below: 32 zero bytes for every
message. -/
def zeroDigest (_ : List Nat) : List Nat := List.replicate 32 0

end paillier

/-! ## Loops and results -/

theorem bind_ok {α β : Type} (x : α) (f : α → Go β) : (Except.ok x : Go α) >>= f = f x := rfl

theorem bind_error {α β : Type} (p : GoPanic) (f : α → Go β) :
    (Except.error p : Go α) >>= f = Except.error p := rfl

theorem pure_eq_ok {α : Type} (x : α) : (pure x : Go α) = Except.ok x := rfl

theorem throw_eq_error {α : Type} (p : GoPanic) : (throw p : Go α) = Except.error p := rfl

theorem goFor_succ {α : Type} (f : Nat → Go α) (n : Nat) :
    goFor f (n + 1) = goFor f n >>= fun xs => f n >>= fun x => pure (xs ++ [x]) := rfl

theorem goFor_ok {α : Type} (f : Nat → Go α) (g : Nat → α) (n : Nat)
    (h : ∀ i, i < n → f i = Except.ok (g i)) :
    goFor f n = Except.ok ((List.range n).map g) := by
  induction n with
  | zero => rfl
  | succ n ih =>
    rw [goFor_succ, ih (fun i hi => h i (Nat.lt_succ_of_lt hi)), bind_ok, h n (Nat.lt_succ_self n),
      bind_ok, pure_eq_ok, List.range_succ, List.map_append]
    rfl

theorem goFor_inv {α : Type} (f : Nat → Go α) (n : Nat) (xs : List α)
    (h : goFor f n = Except.ok xs) :
    xs.length = n ∧ ∀ i, i < n → ∃ x, xs[i]? = some x ∧ f i = Except.ok x := by
  induction n generalizing xs with
  | zero =>
    have : xs = [] := by
      have h2 : (Except.ok [] : Go (List α)) = Except.ok xs := h
      injection h2 with h3
      exact h3.symm
    subst this
    exact ⟨rfl, fun i hi => absurd hi (Nat.not_lt_zero i)⟩
  | succ n ih =>
    rw [goFor_succ] at h
    cases hys : goFor f n with
    | error p => rw [hys, bind_error] at h; cases h
    | ok ys =>
      rw [hys, bind_ok] at h
      cases hx : f n with
      | error p => rw [hx, bind_error] at h; cases h
      | ok x =>
        rw [hx, bind_ok, pure_eq_ok] at h
        injection h with h3
        subst h3
        obtain ⟨hlen, hall⟩ := ih ys hys
        refine ⟨by simp [hlen], fun i hi => ?_⟩
        rcases Nat.lt_succ_iff_lt_or_eq.mp hi with hlt | heq
        · obtain ⟨y, hy, hfy⟩ := hall i hlt
          exact ⟨y, by rw [List.getElem?_append_left (by omega)]; exact hy, hfy⟩
        · subst heq
          exact ⟨x, by rw [← hlen]; simp, hx⟩

theorem goFor_error {α : Type} (f : Nat → Go α) (n i : Nat) (p : GoPanic) (hi : i < n)
    (h : f i = Except.error p) : ∃ q, goFor f n = Except.error q := by
  cases hxs : goFor f n with
  | error q => exact ⟨q, rfl⟩
  | ok xs =>
    obtain ⟨_, hall⟩ := goFor_inv f n xs hxs
    obtain ⟨x, _, hx⟩ := hall i hi
    rw [h] at hx
    cases hx

theorem goFor_congr {α : Type} (f g : Nat → Go α) (n : Nat) (h : ∀ i, i < n → f i = g i) :
    goFor f n = goFor g n := by
  induction n with
  | zero => rfl
  | succ n ih =>
    rw [goFor_succ, goFor_succ, ih (fun i hi => h i (Nat.lt_succ_of_lt hi)), h n (Nat.lt_succ_self n)]

namespace paillier

theorem EncryptWithChosenRandomness_eq (ek : PublicKey) (m r : Int) :
    EncryptWithChosenRandomness ek m r = Except.error GoPanic.nilDereference := rfl

theorem encryptAllocated_eq (ek : PublicKey) (m r : Int) (hN : 0 < ek.N) :
    encryptAllocated ek m r = Except.ok (encFormula ek.N m r) := by
  have hnn : ek.N * ek.N ≠ 0 := mul_ne_zero (ne_of_gt hN) (ne_of_gt hN)
  have habs : |ek.N * ek.N| = ek.N * ek.N := abs_of_pos (mul_pos hN hN)
  simp only [encryptAllocated, EncryptWithChosenRandomnessFrom, newInt, bigExp, bigMul, bigAdd,
    bigMod, deref, PublicKey.n2, expValue, encFormula, bind_ok, pure_eq_ok, hnn, if_false,
    not_lt_of_gt hN, habs, sq, add_comm 1 (m * ek.N), bind, Except.bind]

theorem pow_modulus_congr (N a b : Int) (hN : 0 ≤ N) (h : a ≡ b [ZMOD N]) :
    a ^ N.toNat ≡ b ^ N.toNat [ZMOD N ^ 2] := by
  have hk : ((N.toNat : ℕ) : Int) = N := Int.toNat_of_nonneg hN
  have hd : ((N.toNat : ℕ) : Int) ∣ a - b := by
    rw [hk]; exact (Int.modEq_iff_dvd.mp h.symm)
  have := dvd_sub_pow_of_dvd_sub hd 1
  rw [hk] at this
  simp only [pow_one] at this
  exact (Int.modEq_iff_dvd.mpr this).symm

theorem encFormula_modEq (N m r : Int) :
    encFormula N m r ≡ (1 + m * N) * r ^ N.toNat [ZMOD N ^ 2] := by
  unfold encFormula
  exact (Int.mod_modEq _ _).trans ((Int.mod_modEq _ _).mul (Int.mod_modEq _ _))

theorem encFormula_eq_of_modEq (N m r m' r' : Int)
    (h : (1 + m * N) * r ^ N.toNat ≡ (1 + m' * N) * r' ^ N.toNat [ZMOD N ^ 2]) :
    encFormula N m r = encFormula N m' r' := by
  have h1 := ((encFormula_modEq N m r).trans h).trans (encFormula_modEq N m' r').symm
  have e1 : encFormula N m r % N ^ 2 = encFormula N m r := by
    unfold encFormula; exact Int.emod_emod_of_dvd _ (dvd_refl _)
  have e2 : encFormula N m' r' % N ^ 2 = encFormula N m' r' := by
    unfold encFormula; exact Int.emod_emod_of_dvd _ (dvd_refl _)
  have h2 : encFormula N m r % N ^ 2 = encFormula N m' r' % N ^ 2 := h1
  rw [e1, e2] at h2
  exact h2

theorem encFormula_mul (N m1 r1 m2 r2 : Int) (hN : 0 ≤ N) :
    (encFormula N m1 r1 * encFormula N m2 r2) % N ^ 2 = encFormula N (m1 + m2) (r1 * r2 % N) := by
  have hp : (r1 * r2 % N) ^ N.toNat ≡ (r1 * r2) ^ N.toNat [ZMOD N ^ 2] :=
    pow_modulus_congr N _ _ hN (Int.mod_modEq _ _)
  have hA : (1 + m1 * N) * (1 + m2 * N) ≡ 1 + (m1 + m2) * N [ZMOD N ^ 2] := by
    apply Int.modEq_iff_dvd.mpr
    exact ⟨-(m1 * m2), by ring⟩
  have hl : encFormula N m1 r1 * encFormula N m2 r2
      ≡ (1 + (m1 + m2) * N) * (r1 * r2 % N) ^ N.toNat [ZMOD N ^ 2] := by
    have h0 := (encFormula_modEq N m1 r1).mul (encFormula_modEq N m2 r2)
    refine h0.trans ?_
    have e : (1 + m1 * N) * r1 ^ N.toNat * ((1 + m2 * N) * r2 ^ N.toNat)
        = (1 + m1 * N) * (1 + m2 * N) * (r1 * r2) ^ N.toNat := by ring
    rw [e]
    exact hA.mul hp.symm
  have h2 := hl.trans (encFormula_modEq N (m1 + m2) (r1 * r2 % N)).symm
  have e2 : encFormula N (m1 + m2) (r1 * r2 % N) % N ^ 2 = encFormula N (m1 + m2) (r1 * r2 % N) := by
    unfold encFormula; exact Int.emod_emod_of_dvd _ (dvd_refl _)
  have h3 : (encFormula N m1 r1 * encFormula N m2 r2) % N ^ 2
      = encFormula N (m1 + m2) (r1 * r2 % N) % N ^ 2 := h2
  rw [e2] at h3
  exact h3

end paillier

/-! ## The verifier's loop -/

theorem index_eq_ok {α : Type} (xs : List α) (i : Nat) (x : α) (h : xs[i]? = some x) :
    index xs i = Except.ok x := by
  unfold index
  rw [h]
  rfl

theorem index_eq_error {α : Type} (xs : List α) (i : Nat) (h : xs.length ≤ i) :
    index xs i = Except.error GoPanic.indexOutOfRange := by
  unfold index
  rw [List.getElem?_eq_none h]
  rfl

namespace paillier

theorem goFor_total {α : Type} (f : Nat → Go α) (n : Nat)
    (h : ∀ i, i < n → ∃ x, f i = Except.ok x) : ∃ xs, goFor f n = Except.ok xs := by
  induction n with
  | zero => exact ⟨[], rfl⟩
  | succ n ih =>
    obtain ⟨xs, hxs⟩ := ih (fun i hi => h i (Nat.lt_succ_of_lt hi))
    obtain ⟨x, hx⟩ := h n (Nat.lt_succ_self n)
    exact ⟨xs ++ [x], by rw [goFor_succ, hxs, bind_ok, hx, bind_ok, pure_eq_ok]⟩

theorem VerifierOutputWith_unfold (enc : PublicKey → Int → Int → Go Int) (ek : PublicKey)
    (e : List Nat) (encryptedPairs : EncryptedPairs) (proof : Proof) (rangeVal cipherX : Int)
    (errorFactor : Nat) :
    VerifierOutputWith enc ek e encryptedPairs proof rangeVal cipherX errorFactor =
      goFor (verifyRepetition enc ek (bitvec.NewBitVecFromBytes e) encryptedPairs proof
        (rangeVal / 3) (2 * (rangeVal / 3)) cipherX) errorFactor >>= fun verifications =>
        if verifications.all id then pure none
        else pure (some (GoError.errorsNew "CorrectKeyProofError")) := rfl

theorem VerifierOutputWith_nil_iff (enc : PublicKey → Int → Int → Go Int) (ek : PublicKey)
    (e : List Nat) (encryptedPairs : EncryptedPairs) (proof : Proof) (rangeVal cipherX : Int)
    (errorFactor : Nat) :
    VerifierOutputWith enc ek e encryptedPairs proof rangeVal cipherX errorFactor = Except.ok none ↔
      ∀ i, i < errorFactor →
        verifyRepetition enc ek (bitvec.NewBitVecFromBytes e) encryptedPairs proof
          (rangeVal / 3) (2 * (rangeVal / 3)) cipherX i = Except.ok true := by
  rw [VerifierOutputWith_unfold]
  constructor
  · intro h i hi
    cases hvs : goFor (verifyRepetition enc ek (bitvec.NewBitVecFromBytes e) encryptedPairs proof
        (rangeVal / 3) (2 * (rangeVal / 3)) cipherX) errorFactor with
    | error p => rw [hvs, bind_error] at h; cases h
    | ok vs =>
      rw [hvs, bind_ok] at h
      obtain ⟨_, hall⟩ := goFor_inv _ _ _ hvs
      obtain ⟨x, hx, hfx⟩ := hall i hi
      by_cases hv : vs.all id = true
      · have hmem : x ∈ vs := List.getElem?_mem hx
        have : id x = true := (List.all_eq_true.mp hv) x hmem
        rw [hfx]
        exact congrArg Except.ok this
      · rw [if_neg hv, pure_eq_ok] at h
        cases h
  · intro h
    rw [goFor_ok _ (fun _ => true) _ h, bind_ok]
    have : ((List.range errorFactor).map fun _ => true).all id = true := by
      simp [List.all_eq_true]
    rw [if_pos this]
    rfl

theorem VerifierOutputWith_error_iff (enc : PublicKey → Int → Int → Go Int) (ek : PublicKey)
    (e : List Nat) (encryptedPairs : EncryptedPairs) (proof : Proof) (rangeVal cipherX : Int)
    (errorFactor : Nat) (err : GoError) :
    VerifierOutputWith enc ek e encryptedPairs proof rangeVal cipherX errorFactor
        = Except.ok (some err) ↔
      err = GoError.errorsNew "CorrectKeyProofError" ∧
      (∀ i, i < errorFactor → ∃ b,
        verifyRepetition enc ek (bitvec.NewBitVecFromBytes e) encryptedPairs proof
          (rangeVal / 3) (2 * (rangeVal / 3)) cipherX i = Except.ok b) ∧
      ∃ i, i < errorFactor ∧
        verifyRepetition enc ek (bitvec.NewBitVecFromBytes e) encryptedPairs proof
          (rangeVal / 3) (2 * (rangeVal / 3)) cipherX i = Except.ok false := by
  rw [VerifierOutputWith_unfold]
  constructor
  · intro h
    cases hvs : goFor (verifyRepetition enc ek (bitvec.NewBitVecFromBytes e) encryptedPairs proof
        (rangeVal / 3) (2 * (rangeVal / 3)) cipherX) errorFactor with
    | error p => rw [hvs, bind_error] at h; cases h
    | ok vs =>
      rw [hvs, bind_ok] at h
      obtain ⟨hlen, hall⟩ := goFor_inv _ _ _ hvs
      by_cases hv : vs.all id = true
      · rw [if_pos hv, pure_eq_ok] at h
        cases h
      · rw [if_neg hv, pure_eq_ok] at h
        injection h with h1
        injection h1 with h2
        refine ⟨h2.symm, fun i hi => ?_, ?_⟩
        · obtain ⟨x, _, hfx⟩ := hall i hi
          exact ⟨x, hfx⟩
        · have hex : ∃ x, x ∈ vs ∧ ¬ (id x = true) := by
            by_contra hcon
            apply hv
            rw [List.all_eq_true]
            intro x hx
            by_contra hne
            exact hcon ⟨x, hx, hne⟩
          obtain ⟨x, hxmem, hxf⟩ := hex
          obtain ⟨i, hi, hget⟩ := List.getElem_of_mem hxmem
          have hi2 : i < errorFactor := by omega
          obtain ⟨y, hy, hfy⟩ := hall i hi2
          have hyx : y = x := by
            rw [List.getElem?_eq_getElem hi, hget] at hy
            injection hy with hy1
            exact hy1.symm
          have hxfalse : x = false := by
            cases x with
            | false => rfl
            | true => exact absurd rfl hxf
          exact ⟨i, hi2, by rw [hfy, hyx, hxfalse]⟩
  · rintro ⟨herr, htot, i, hi, hfalse⟩
    obtain ⟨vs, hvs⟩ := goFor_total _ _ htot
    rw [hvs, bind_ok]
    obtain ⟨_, hall⟩ := goFor_inv _ _ _ hvs
    obtain ⟨x, hx, hfx⟩ := hall i hi
    rw [hfalse] at hfx
    injection hfx with hx2
    have hmem : false ∈ vs := by
      rw [← hx2] at hx
      exact List.getElem?_mem hx
    have hv : ¬ (vs.all id = true) := by
      intro hall2
      have := (List.all_eq_true.mp hall2) false hmem
      exact absurd this (by decide)
    rw [if_neg hv, herr]
    rfl

theorem verifyRepetition_missing_open (enc : PublicKey → Int → Int → Go Int) (ek : PublicKey)
    (bitsOfE : bitvec.BitVec) (encryptedPairs : EncryptedPairs) (proof : Proof)
    (third twoThirds cipherX : Int) (i : Nat) (response : Response)
    (hbit : bitvec.GetBit bitsOfE i = Except.ok false)
    (hresp : proof.Responses[i]? = some response) (hopen : response.Open = none) :
    verifyRepetition enc ek bitsOfE encryptedPairs proof third twoThirds cipherX i
      = Except.ok false := by
  unfold verifyRepetition
  rw [hbit, bind_ok, index_eq_ok _ _ _ hresp, bind_ok]
  simp only [Bool.not_false, if_true, hopen]
  rfl

theorem verifyRepetition_missing_mask (enc : PublicKey → Int → Int → Go Int) (ek : PublicKey)
    (bitsOfE : bitvec.BitVec) (encryptedPairs : EncryptedPairs) (proof : Proof)
    (third twoThirds cipherX : Int) (i : Nat) (response : Response)
    (hbit : bitvec.GetBit bitsOfE i = Except.ok true)
    (hresp : proof.Responses[i]? = some response) (hmask : response.Mask = none) :
    verifyRepetition enc ek bitsOfE encryptedPairs proof third twoThirds cipherX i
      = Except.ok false := by
  unfold verifyRepetition
  rw [hbit, bind_ok, index_eq_ok _ _ _ hresp, bind_ok]
  simp only [Bool.not_true, hmask]
  rfl

theorem verifyRepetition_short_proof (enc : PublicKey → Int → Int → Go Int) (ek : PublicKey)
    (bitsOfE : bitvec.BitVec) (encryptedPairs : EncryptedPairs) (proof : Proof)
    (third twoThirds cipherX : Int) (i : Nat) (h : proof.Responses.length ≤ i) :
    ∃ p, verifyRepetition enc ek bitsOfE encryptedPairs proof third twoThirds cipherX i
      = Except.error p := by
  unfold verifyRepetition
  cases hbit : bitvec.GetBit bitsOfE i with
  | error p => exact ⟨p, rfl⟩
  | ok b =>
    rw [bind_ok, index_eq_error _ _ h]
    exact ⟨GoPanic.indexOutOfRange, rfl⟩

theorem verifyRepetition_take (enc : PublicKey → Int → Int → Go Int) (ek : PublicKey)
    (bitsOfE : bitvec.BitVec) (encryptedPairs : EncryptedPairs) (proof : Proof)
    (third twoThirds cipherX : Int) (n i : Nat) (h : i < n) :
    verifyRepetition enc ek bitsOfE encryptedPairs proof third twoThirds cipherX i =
      verifyRepetition enc ek bitsOfE encryptedPairs { Responses := proof.Responses.take n }
        third twoThirds cipherX i := by
  unfold verifyRepetition
  have : index (List.take n proof.Responses) i = index proof.Responses i := by
    unfold index
    rw [List.getElem?_take_of_lt h]
  simp only [this]

end paillier

namespace paillier

theorem verifyRepetition_open (enc : PublicKey → Int → Int → Go Int) (ek : PublicKey)
    (bitsOfE : bitvec.BitVec) (encryptedPairs : EncryptedPairs) (proof : Proof)
    (third twoThirds cipherX : Int) (i : Nat) (response : Response) (o : Open)
    (e1 e2 c1 c2 : Int)
    (hbit : bitvec.GetBit bitsOfE i = Except.ok false)
    (hresp : proof.Responses[i]? = some response) (hopen : response.Open = some o)
    (h1 : enc ek o.W1 o.R1 = Except.ok e1) (h2 : enc ek o.W2 o.R2 = Except.ok e2)
    (hc1 : encryptedPairs.C1[i]? = some c1) (hc2 : encryptedPairs.C2[i]? = some c2) :
    verifyRepetition enc ek bitsOfE encryptedPairs proof third twoThirds cipherX i
      = Except.ok ((decide (e1 = c1) && decide (e2 = c2)) &&
          ((decide (o.W1 < third) && decide (o.W2 > third) && decide (o.W2 < twoThirds)) ||
           (decide (o.W2 < third) && decide (o.W1 > third) && decide (o.W1 < twoThirds)))) := by
  unfold verifyRepetition
  rw [hbit, bind_ok, index_eq_ok _ _ _ hresp, bind_ok]
  simp only [Bool.not_false, if_true, hopen]
  rw [h1, bind_ok, h2, bind_ok, index_eq_ok _ _ _ hc1, bind_ok, index_eq_ok _ _ _ hc2]
  by_cases he : e1 = c1
  · simp only [he, if_true, bind_ok, pure_eq_ok, decide_True, Bool.true_and]
  · simp only [he, if_false, bind_ok, pure_eq_ok, decide_False, Bool.false_and]

theorem verifyRepetition_mask (enc : PublicKey → Int → Int → Go Int) (ek : PublicKey)
    (bitsOfE : bitvec.BitVec) (encryptedPairs : EncryptedPairs) (proof : Proof)
    (third twoThirds cipherX : Int) (i : Nat) (response : Response) (mk : Mask)
    (cJ z : Int)
    (hbit : bitvec.GetBit bitsOfE i = Except.ok true)
    (hresp : proof.Responses[i]? = some response) (hmask : response.Mask = some mk)
    (hcJ : (if mk.J = 1 then encryptedPairs.C1 else encryptedPairs.C2)[i]? = some cJ)
    (hn2 : ek.n2 ≠ 0) (hz : enc ek mk.MaskedX mk.MaskedR = Except.ok z) :
    verifyRepetition enc ek bitsOfE encryptedPairs proof third twoThirds cipherX i
      = Except.ok (decide (cJ * cipherX % ek.n2 = z) && decide (mk.MaskedX > third)
          && decide (mk.MaskedX < twoThirds)) := by
  unfold verifyRepetition
  rw [hbit, bind_ok, index_eq_ok _ _ _ hresp, bind_ok]
  simp only [Bool.not_true, hmask]
  simp only [Bool.false_eq_true, if_false]
  by_cases hJ : mk.J = 1
  · rw [if_pos hJ] at hcJ ⊢
    rw [index_eq_ok _ _ _ hcJ, bind_ok]
    simp only [bigMod, newInt, deref, bind_ok, pure_eq_ok, hn2, if_false, hz]
  · rw [if_neg hJ] at hcJ ⊢
    rw [index_eq_ok _ _ _ hcJ, bind_ok]
    simp only [bigMod, newInt, deref, bind_ok, pure_eq_ok, hn2, if_false, hz]

end paillier

/-! ## An honest run -/

namespace bitvec

theorem GetBit_of_lt (b : BitVec) (i : Nat) (h : i < Len b) : GetBit b i = Except.ok (bitAt b i) := by
  have hpos : i / 32 < b.length := by
    unfold Len at h
    omega
  unfold GetBit bitAt
  dsimp only
  rw [index_eq_ok b (i / 32) b[i / 32] (List.getElem?_eq_getElem hpos), bind_ok]
  simp only [List.getD_eq_getElem?_getD, List.getElem?_eq_getElem hpos, Option.getD_some]
  rfl

end bitvec

namespace paillier

theorem index_map_range {α : Type} (f : Nat → α) (n i : Nat) (h : i < n) :
    index ((List.range n).map f) i = Except.ok (f i) := by
  apply index_eq_ok
  rw [List.getElem?_map, List.getElem?_range h]
  rfl

theorem getElem?_map_range {α : Type} (f : Nat → α) (n i : Nat) (h : i < n) :
    ((List.range n).map f)[i]? = some (f i) := by
  rw [List.getElem?_map, List.getElem?_range h]
  rfl

theorem GenerateEncryptedPairsWith_contract (enc : PublicKey → Int → Int → Go Int) (rnd : Draws)
    (ek : PublicKey) (rangeVal : Int) (n : Nat) (henc : MeetsContract enc ek) :
    GenerateEncryptedPairsWith enc rnd ek rangeVal n
      = Except.ok (honestPairs rnd ek rangeVal n, honestData rnd rangeVal n) := by
  unfold GenerateEncryptedPairsWith
  dsimp only
  rw [goFor_ok _ (fun i => (encFormula ek.N (drawW rnd (rangeVal / 3) i).1 (rnd.r1 i),
      encFormula ek.N (drawW rnd (rangeVal / 3) i).2 (rnd.r2 i))) n
      (fun i _ => by rw [henc, bind_ok, henc, bind_ok]; rfl)]
  rw [bind_ok, pure_eq_ok]
  simp only [honestPairs, honestData, List.map_map]
  rfl

theorem proofResponse_honest (rnd : Draws) (ek : PublicKey) (rangeVal secretX secretR : Int)
    (bitsOfE : bitvec.BitVec) (n i : Nat) (b : Bool) (hi : i < n) (hN : ek.N ≠ 0)
    (hbit : bitvec.GetBit bitsOfE i = Except.ok b) :
    proofResponse ek secretX secretR bitsOfE (rangeVal / 3) (2 * (rangeVal / 3))
      (honestData rnd rangeVal n) i
      = Except.ok (honestResponse rnd ek rangeVal secretX secretR b i) := by
  unfold proofResponse honestResponse honestData
  rw [hbit, bind_ok]
  cases b with
  | false =>
    simp only [Bool.not_false, if_true, index_map_range _ _ _ hi, bind_ok, pure_eq_ok]
  | true =>
    simp only [Bool.not_true, Bool.false_eq_true, if_false, index_map_range _ _ _ hi, bind_ok,
      pure_eq_ok]
    split_ifs <;>
      simp only [index_map_range _ _ _ hi, bigMod, newInt, deref, bind_ok, pure_eq_ok, hN,
        if_false]

theorem GenerateProof_honest (rnd : Draws) (ek : PublicKey) (rangeVal secretX secretR : Int)
    (e : List Nat) (n : Nat) (hN : ek.N ≠ 0) (he : n ≤ bitvec.Len (bitvec.NewBitVecFromBytes e)) :
    GenerateProof ek secretX secretR e rangeVal (honestData rnd rangeVal n) n
      = Except.ok (honestProof rnd ek rangeVal secretX secretR e n) := by
  unfold GenerateProof honestProof
  dsimp only
  rw [goFor_ok _ (fun i => honestResponse rnd ek rangeVal secretX secretR
      (bitvec.bitAt (bitvec.NewBitVecFromBytes e) i) i) n
      (fun i hi => proofResponse_honest rnd ek rangeVal secretX secretR _ n i _ hi hN
        (bitvec.GetBit_of_lt _ i (lt_of_lt_of_le hi he)))]
  rfl

end paillier

namespace paillier

theorem n2_eq_sq (ek : PublicKey) : ek.n2 = ek.N ^ 2 := by
  unfold PublicKey.n2
  ring

theorem mask_ciphertext_eq (N w r x s : Int) (hN : 0 ≤ N) :
    encFormula N w r * encFormula N x s % N ^ 2 = encFormula N (x + w) (s * r % N) := by
  rw [encFormula_mul N w r x s hN, add_comm w x, mul_comm r s]

theorem drawW_cases (rnd : Draws) (third : Int) (i : Nat) :
    drawW rnd third i = (rnd.w2 i, third + rnd.w2 i) ∨
    drawW rnd third i = (third + rnd.w2 i, rnd.w2 i) := by
  unfold drawW
  by_cases h : rnd.coin i = 0
  · left; simp only [h, if_true]
  · right; simp only [h, if_false]

theorem verifyRepetition_honest (enc : PublicKey → Int → Int → Go Int) (rnd : Draws)
    (ek : PublicKey) (rangeVal secretX secretR : Int) (e : List Nat) (n i : Nat)
    (henc : MeetsContract enc ek) (hN : 0 < ek.N) (hi : i < n)
    (hw : 0 ≤ rnd.w2 i ∧ rnd.w2 i < 2 * (rangeVal / 3) - rangeVal / 3)
    (he : n ≤ bitvec.Len (bitvec.NewBitVecFromBytes e)) :
    verifyRepetition enc ek (bitvec.NewBitVecFromBytes e) (honestPairs rnd ek rangeVal n)
      (honestProof rnd ek rangeVal secretX secretR e n) (rangeVal / 3) (2 * (rangeVal / 3))
      (encFormula ek.N secretX secretR) i
      = Except.ok (honestVerdict rnd rangeVal secretX
          (bitvec.bitAt (bitvec.NewBitVecFromBytes e) i) i) := by
  have hbit := bitvec.GetBit_of_lt (bitvec.NewBitVecFromBytes e) i (lt_of_lt_of_le hi he)
  have hresp : (honestProof rnd ek rangeVal secretX secretR e n).Responses[i]?
      = some (honestResponse rnd ek rangeVal secretX secretR
          (bitvec.bitAt (bitvec.NewBitVecFromBytes e) i) i) :=
    getElem?_map_range _ n i hi
  have hc1 : (honestPairs rnd ek rangeVal n).C1[i]?
      = some (encFormula ek.N (drawW rnd (rangeVal / 3) i).1 (rnd.r1 i)) :=
    getElem?_map_range _ n i hi
  have hc2 : (honestPairs rnd ek rangeVal n).C2[i]?
      = some (encFormula ek.N (drawW rnd (rangeVal / 3) i).2 (rnd.r2 i)) :=
    getElem?_map_range _ n i hi
  have hn2 : ek.n2 ≠ 0 := by
    unfold PublicKey.n2
    exact mul_ne_zero (ne_of_gt hN) (ne_of_gt hN)
  cases hb : bitvec.bitAt (bitvec.NewBitVecFromBytes e) i with
  | false =>
    rw [hb] at hbit hresp
    rw [verifyRepetition_open enc ek _ _ _ _ _ _ i _
      { W1 := (drawW rnd (rangeVal / 3) i).1, R1 := rnd.r1 i,
        W2 := (drawW rnd (rangeVal / 3) i).2, R2 := rnd.r2 i } _ _ _ _ hbit hresp
      (by simp [honestResponse]) (henc _ _) (henc _ _) hc1 hc2]
    congr 1
    simp only [honestVerdict, Bool.not_false, if_true, decide_True, Bool.true_and]
    rcases drawW_cases rnd (rangeVal / 3) i with h | h <;> rw [h] <;>
      rw [Bool.eq_iff_iff] <;>
      simp only [Bool.or_eq_true, Bool.and_eq_true, decide_eq_true_eq] <;>
      constructor <;> intro hh <;> omega
  | true =>
    rw [hb] at hbit hresp
    by_cases hin : secretX + (drawW rnd (rangeVal / 3) i).1 > rangeVal / 3 ∧
        secretX + (drawW rnd (rangeVal / 3) i).1 < 2 * (rangeVal / 3)
    · rw [verifyRepetition_mask enc ek _ _ _ _ _ _ i _
        { J := 1, MaskedX := secretX + (drawW rnd (rangeVal / 3) i).1,
          MaskedR := secretR * rnd.r1 i % ek.N }
        (encFormula ek.N (drawW rnd (rangeVal / 3) i).1 (rnd.r1 i)) _ hbit hresp
        (by simp [honestResponse, hin]) (by simpa using hc1) hn2 (henc _ _)]
      congr 1
      simp only [honestVerdict, Bool.not_true, Bool.false_eq_true, if_false]
      rw [n2_eq_sq, mask_ciphertext_eq _ _ _ _ _ (le_of_lt hN)]
      rw [Bool.eq_iff_iff]
      simp only [decide_True, Bool.true_and, Bool.and_eq_true, decide_eq_true_eq]
      constructor
      · intro _; exact Or.inl hin
      · intro _; exact hin
    · rw [verifyRepetition_mask enc ek _ _ _ _ _ _ i _
        { J := 2, MaskedX := secretX + (drawW rnd (rangeVal / 3) i).2,
          MaskedR := secretR * rnd.r2 i % ek.N }
        (encFormula ek.N (drawW rnd (rangeVal / 3) i).2 (rnd.r2 i)) _ hbit hresp
        (by simp [honestResponse, hin]) (by simpa using hc2) hn2 (henc _ _)]
      congr 1
      simp only [honestVerdict, Bool.not_true, Bool.false_eq_true, if_false]
      rw [n2_eq_sq, mask_ciphertext_eq _ _ _ _ _ (le_of_lt hN)]
      rw [Bool.eq_iff_iff]
      simp only [decide_True, Bool.true_and, Bool.and_eq_true, decide_eq_true_eq]
      constructor
      · intro h2; exact Or.inr h2
      · intro h2
        rcases h2 with h2 | h2
        · exact absurd h2 hin
        · exact h2

end paillier

/-! ## The claims -/

namespace paillier

theorem encFormula_range (N m r : Int) (hN : 0 < N) :
    0 ≤ encFormula N m r ∧ encFormula N m r < N ^ 2 := by
  have hpos : (0 : Int) < N ^ 2 := by positivity
  unfold encFormula
  exact ⟨Int.emod_nonneg _ (ne_of_gt hpos), Int.emod_lt_of_pos _ hpos⟩

theorem MeetsContract_encryptAllocated (ek : PublicKey) (hN : 0 < ek.N) :
    MeetsContract encryptAllocated ek :=
  fun m r => encryptAllocated_eq ek m r hN

/-- C8 (code defect). For every key with modulus `N ≥ 1`, plaintext `m` and
randomness `r`, the body of `EncryptWithChosenRandomness` computes
`((1 + m·N) mod N²) · (r^N mod N²) mod N²`, a value in `[0, N²)`, once its five
local variables are allocated; as the source declares them (nil pointers) the
call panics on a nil dereference and returns nothing. -/
theorem C8_EncryptWithChosenRandomness_nil_receiver (ek : PublicKey) (m r : Int)
    (hN : 1 ≤ ek.N) :
    EncryptWithChosenRandomness ek m r = Except.error GoPanic.nilDereference ∧
    EncryptWithChosenRandomness ek m r ≠ Except.ok (encFormula ek.N m r) ∧
    encryptAllocated ek m r = Except.ok (encFormula ek.N m r) ∧
    0 ≤ encFormula ek.N m r ∧ encFormula ek.N m r < ek.N ^ 2 := by
  refine ⟨rfl, ?_, encryptAllocated_eq ek m r hN, encFormula_range ek.N m r hN⟩
  rw [EncryptWithChosenRandomness_eq]
  intro h
  cases h

/-- C8, at the key `N = 5`, plaintext `2` and randomness `3`. -/
theorem C8_EncryptWithChosenRandomness_nil_receiver_witness :
    (1 : Int) ≤ (PublicKey.mk 5).N ∧
    EncryptWithChosenRandomness (PublicKey.mk 5) 2 3 = Except.error GoPanic.nilDereference ∧
    encryptAllocated (PublicKey.mk 5) 2 3 = Except.ok 23 :=
  ⟨by decide, (C8_EncryptWithChosenRandomness_nil_receiver (PublicKey.mk 5) 2 3 (by decide)).1,
    by decide⟩

/-- C9 (code defect). For every modulus `N ≥ 1` the product of two ciphertexts
modulo `N²` is the ciphertext of the sum of the plaintexts under the randomness
`(r1 · r2) mod N`, for the body of `EncryptWithChosenRandomness` with its local
variables allocated; in the source as written none of the three encryptions
returns a value, each panics on a nil dereference. -/
theorem C9_homomorphism (ek : PublicKey) (m1 r1 m2 r2 : Int) (hN : 1 ≤ ek.N) :
    (∃ c1 c2 c : Int, encryptAllocated ek m1 r1 = Except.ok c1 ∧
      encryptAllocated ek m2 r2 = Except.ok c2 ∧
      encryptAllocated ek (m1 + m2) (r1 * r2 % ek.N) = Except.ok c ∧
      c1 * c2 % ek.N ^ 2 = c) ∧
    EncryptWithChosenRandomness ek m1 r1 = Except.error GoPanic.nilDereference ∧
    EncryptWithChosenRandomness ek m2 r2 = Except.error GoPanic.nilDereference ∧
    EncryptWithChosenRandomness ek (m1 + m2) (r1 * r2 % ek.N)
      = Except.error GoPanic.nilDereference :=
  ⟨⟨_, _, _, encryptAllocated_eq ek m1 r1 hN, encryptAllocated_eq ek m2 r2 hN,
      encryptAllocated_eq ek _ _ hN, encFormula_mul ek.N m1 r1 m2 r2 (by omega)⟩,
    rfl, rfl, rfl⟩

/-- C9, at the key `N = 5` with plaintexts `2, 4` and randomness `3, 2`. -/
theorem C9_homomorphism_witness :
    (1 : Int) ≤ (PublicKey.mk 5).N ∧
    (encFormula 5 2 3 * encFormula 5 4 2) % 5 ^ 2 = encFormula 5 (2 + 4) (3 * 2 % 5) ∧
    EncryptWithChosenRandomness (PublicKey.mk 5) 2 3 = Except.error GoPanic.nilDereference :=
  ⟨by decide, by decide, (C9_homomorphism (PublicKey.mk 5) 2 3 4 2 (by decide)).2.1⟩

/-- C10 (code defect). `hheap` says that two equal pointers point to one
integer. A supplied key that differs in value from the transcript's key gets
the error `EncryptionKey mismatch`; a key held in the same `big.Int` with a
ciphertext that differs in value gets `Ciphertext mismatch`; both errors differ
from `RangeProofError` and do not depend on the pairs and the proof; a key held
in the same `big.Int` with an equal ciphertext gets what `VerifySelf` returns.
A key held in another `big.Int` gets `EncryptionKey mismatch` also when it is
equal in value to the transcript's key and the ciphertext is equal: there
`Verify` does not return what `VerifySelf` returns. -/
theorem C10_Verify_binding (sha256 : List Nat → List Nat) (rpn : RangeProofNi) (rpnEkN : Nat)
    (ek : PublicKey) (ekN : Nat) (ciphertext : Int) (hheap : ekN = rpnEkN → ek = rpn.Ek) :
    (ek ≠ rpn.Ek →
      Verify sha256 rpn rpnEkN ek ekN ciphertext
        = Except.ok (some (GoError.errorsNew "EncryptionKey mismatch"))) ∧
    (ekN = rpnEkN → ciphertext ≠ rpn.Ciphertext →
      Verify sha256 rpn rpnEkN ek ekN ciphertext
        = Except.ok (some (GoError.errorsNew "Ciphertext mismatch"))) ∧
    (ek ≠ rpn.Ek ∨ ciphertext ≠ rpn.Ciphertext →
      ∃ msg, Verify sha256 rpn rpnEkN ek ekN ciphertext
          = Except.ok (some (GoError.errorsNew msg)) ∧
        (msg = "EncryptionKey mismatch" ∨ msg = "Ciphertext mismatch") ∧
        GoError.errorsNew msg ≠ GoError.RangeProofError) ∧
    (ekN = rpnEkN → ciphertext = rpn.Ciphertext →
      Verify sha256 rpn rpnEkN ek ekN ciphertext = VerifySelf sha256 rpn) ∧
    (ekN ≠ rpnEkN →
      Verify sha256 rpn rpnEkN ek ekN ciphertext
        = Except.ok (some (GoError.errorsNew "EncryptionKey mismatch"))) := by
  have hptr : ekN ≠ rpnEkN →
      Verify sha256 rpn rpnEkN ek ekN ciphertext
        = Except.ok (some (GoError.errorsNew "EncryptionKey mismatch")) := by
    intro h
    unfold Verify VerifyWith
    rw [if_pos h]
    rfl
  have hct : ekN = rpnEkN → ciphertext ≠ rpn.Ciphertext →
      Verify sha256 rpn rpnEkN ek ekN ciphertext
        = Except.ok (some (GoError.errorsNew "Ciphertext mismatch")) := by
    intro h1 h2
    unfold Verify VerifyWith
    rw [if_neg (not_not.mpr h1), if_pos h2]
    rfl
  have hkey : ek ≠ rpn.Ek → ekN ≠ rpnEkN := fun h hp => h (hheap hp)
  refine ⟨fun h => hptr (hkey h), hct, ?_, ?_, hptr⟩
  · intro h
    by_cases hp : ekN = rpnEkN
    · have hc : ciphertext ≠ rpn.Ciphertext := by
        rcases h with h | h
        · exact absurd hp (hkey h)
        · exact h
      exact ⟨_, hct hp hc, Or.inr rfl, fun h => by cases h⟩
    · exact ⟨_, hptr hp, Or.inl rfl, fun h => by cases h⟩
  · intro h1 h2
    unfold Verify VerifyWith VerifySelf
    rw [if_neg (not_not.mpr h1), if_neg (not_not.mpr h2)]

/-- C10, at the transcript of zero repetitions for the key `N = 7` and the
ciphertext `17`, its modulus held at address `1`: the key `N = 7` held at
address `2` with the ciphertext `17` is equal in value to the stored ones and
gets `EncryptionKey mismatch`, while `VerifySelf` accepts the transcript; the
same key at address `1` is accepted. -/
theorem C10_Verify_binding_witness :
    ((2 : Nat) = 1 → PublicKey.mk 7 = (RangeProofNi.mk (PublicKey.mk 7) 9 17 ⟨[], []⟩ ⟨[]⟩ 0).Ek) ∧
    PublicKey.mk 7 = (RangeProofNi.mk (PublicKey.mk 7) 9 17 ⟨[], []⟩ ⟨[]⟩ 0).Ek ∧
    (17 : Int) = (RangeProofNi.mk (PublicKey.mk 7) 9 17 ⟨[], []⟩ ⟨[]⟩ 0).Ciphertext ∧
    Verify zeroDigest (RangeProofNi.mk (PublicKey.mk 7) 9 17 ⟨[], []⟩ ⟨[]⟩ 0) 1
        (PublicKey.mk 7) 2 17
      = Except.ok (some (GoError.errorsNew "EncryptionKey mismatch")) ∧
    VerifySelf zeroDigest (RangeProofNi.mk (PublicKey.mk 7) 9 17 ⟨[], []⟩ ⟨[]⟩ 0)
      = Except.ok none ∧
    Verify zeroDigest (RangeProofNi.mk (PublicKey.mk 7) 9 17 ⟨[], []⟩ ⟨[]⟩ 0) 1
        (PublicKey.mk 7) 1 17
      = Except.ok none :=
  ⟨by decide, rfl, rfl,
    (C10_Verify_binding zeroDigest (RangeProofNi.mk (PublicKey.mk 7) 9 17 ⟨[], []⟩ ⟨[]⟩ 0) 1
      (PublicKey.mk 7) 2 17 (by decide)).2.2.2.2 (by decide),
    rfl, rfl⟩

end paillier

namespace paillier

/-- C3 (amended). For every encryption routine, `VerifierOutput` returns nil
exactly when every repetition `i < errorFactor` passes its check; whenever it
returns an error this is the one value `CorrectKeyProofError`, and it returns
it exactly when every repetition's check runs to its end and at least one
fails; a repetition whose response lacks the variant selected by its challenge
bit fails. -/
theorem C3_all_or_nothing (enc : PublicKey → Int → Int → Go Int) (ek : PublicKey)
    (e : List Nat) (encryptedPairs : EncryptedPairs) (proof : Proof) (rangeVal cipherX : Int)
    (errorFactor : Nat) :
    (VerifierOutputWith enc ek e encryptedPairs proof rangeVal cipherX errorFactor
        = Except.ok none ↔
      ∀ i, i < errorFactor →
        verifyRepetition enc ek (bitvec.NewBitVecFromBytes e) encryptedPairs proof
          (rangeVal / 3) (2 * (rangeVal / 3)) cipherX i = Except.ok true) ∧
    (∀ err, VerifierOutputWith enc ek e encryptedPairs proof rangeVal cipherX errorFactor
        = Except.ok (some err) ↔
      err = GoError.errorsNew "CorrectKeyProofError" ∧
      (∀ i, i < errorFactor → ∃ b,
        verifyRepetition enc ek (bitvec.NewBitVecFromBytes e) encryptedPairs proof
          (rangeVal / 3) (2 * (rangeVal / 3)) cipherX i = Except.ok b) ∧
      ∃ i, i < errorFactor ∧
        verifyRepetition enc ek (bitvec.NewBitVecFromBytes e) encryptedPairs proof
          (rangeVal / 3) (2 * (rangeVal / 3)) cipherX i = Except.ok false) ∧
    (∀ i response, proof.Responses[i]? = some response →
      (bitvec.GetBit (bitvec.NewBitVecFromBytes e) i = Except.ok false ∧ response.Open = none ∨
       bitvec.GetBit (bitvec.NewBitVecFromBytes e) i = Except.ok true ∧ response.Mask = none) →
      verifyRepetition enc ek (bitvec.NewBitVecFromBytes e) encryptedPairs proof
        (rangeVal / 3) (2 * (rangeVal / 3)) cipherX i = Except.ok false) := by
  refine ⟨VerifierOutputWith_nil_iff enc ek e encryptedPairs proof rangeVal cipherX errorFactor,
    fun err => VerifierOutputWith_error_iff enc ek e encryptedPairs proof rangeVal cipherX
      errorFactor err, ?_⟩
  intro i response hresp h
  rcases h with ⟨hbit, hopen⟩ | ⟨hbit, hmask⟩
  · exact verifyRepetition_missing_open enc ek _ _ _ _ _ _ i response hbit hresp hopen
  · exact verifyRepetition_missing_mask enc ek _ _ _ _ _ _ i response hbit hresp hmask

/-- C3 (counterexample). With one repetition, challenge byte `0` and an empty
proof, `VerifierOutput` returns neither nil nor `CorrectKeyProofError`: it
panics on the slice index; with a response that has the selected variant it
panics in the encryption. -/
theorem C3_counterexample :
    VerifierOutput (PublicKey.mk 7) [0] { C1 := [], C2 := [] } { Responses := [] } 9 1 1
      = Except.error GoPanic.indexOutOfRange ∧
    VerifierOutput (PublicKey.mk 7) [0] { C1 := [44], C2 := [17] }
      { Responses := [{ Open := some { W1 := 1, R1 := 2, W2 := 4, R2 := 3 }, Mask := none }] }
      9 1 1 = Except.error GoPanic.nilDereference := by
  constructor <;> decide

/-- C7 (amended). For every encryption routine: when the proof has fewer than
`errorFactor` responses `VerifierOutput` does not return, it panics; and the
result never depends on the responses after the first `errorFactor`, so a
longer proof gives what its first `errorFactor` responses give. -/
theorem C7_wrong_length (enc : PublicKey → Int → Int → Go Int) (ek : PublicKey)
    (e : List Nat) (encryptedPairs : EncryptedPairs) (proof : Proof) (rangeVal cipherX : Int)
    (errorFactor : Nat) :
    (proof.Responses.length < errorFactor →
      ∃ p, VerifierOutputWith enc ek e encryptedPairs proof rangeVal cipherX errorFactor
        = Except.error p) ∧
    VerifierOutputWith enc ek e encryptedPairs proof rangeVal cipherX errorFactor =
      VerifierOutputWith enc ek e encryptedPairs
        { Responses := proof.Responses.take errorFactor } rangeVal cipherX errorFactor := by
  constructor
  · intro hlen
    obtain ⟨p, hp⟩ := verifyRepetition_short_proof enc ek (bitvec.NewBitVecFromBytes e)
      encryptedPairs proof (rangeVal / 3) (2 * (rangeVal / 3)) cipherX proof.Responses.length
      (le_refl _)
    obtain ⟨q, hq⟩ := goFor_error _ errorFactor _ p hlen hp
    exact ⟨q, by rw [VerifierOutputWith_unfold, hq, bind_error]⟩
  · rw [VerifierOutputWith_unfold, VerifierOutputWith_unfold]
    rw [goFor_congr _ _ errorFactor (fun i hi =>
      verifyRepetition_take enc ek (bitvec.NewBitVecFromBytes e) encryptedPairs proof
        (rangeVal / 3) (2 * (rangeVal / 3)) cipherX errorFactor i hi)]

/-- C7 (counterexample). `VerifierOutput` returns nil for a proof of one
response and `errorFactor = 0`, and panics on the slice index for an empty
proof and `errorFactor = 1`; with the local variables of the encryption
allocated it returns nil for a proof of two responses and `errorFactor = 1`. -/
theorem C7_counterexample :
    VerifierOutput (PublicKey.mk 7) [0] { C1 := [], C2 := [] }
      { Responses := [{ Open := none, Mask := none }] } 9 1 0 = Except.ok none ∧
    VerifierOutput (PublicKey.mk 7) [0] { C1 := [], C2 := [] } { Responses := [] } 9 1 1
      = Except.error GoPanic.indexOutOfRange ∧
    VerifierOutputWith encryptAllocated (PublicKey.mk 7) [0] { C1 := [44], C2 := [17] }
      { Responses := [{ Open := some { W1 := 1, R1 := 2, W2 := 4, R2 := 3 }, Mask := none },
                      { Open := none, Mask := none }] }
      9 1 1 = Except.ok none := by
  refine ⟨?_, ?_, ?_⟩ <;> decide

/-- C4 (amended). For an encryption routine that returns the value of the
formula, a repetition `i` with challenge bit 0, an Open response and both
committed ciphertexts present passes exactly when `Enc(W1, R1) = C1[i]`,
`Enc(W2, R2) = C2[i]` and one of `W1`, `W2` is strictly below `third` while the
other is strictly inside `(third, twoThirds)`; otherwise it fails. -/
theorem C4_open_branch (enc : PublicKey → Int → Int → Go Int) (ek : PublicKey) (e : List Nat)
    (encryptedPairs : EncryptedPairs) (proof : Proof) (rangeVal cipherX : Int) (i : Nat)
    (response : Response) (o : Open) (c1 c2 : Int)
    (henc : MeetsContract enc ek)
    (hbit : bitvec.GetBit (bitvec.NewBitVecFromBytes e) i = Except.ok false)
    (hresp : proof.Responses[i]? = some response) (hopen : response.Open = some o)
    (hc1 : encryptedPairs.C1[i]? = some c1) (hc2 : encryptedPairs.C2[i]? = some c2) :
    verifyRepetition enc ek (bitvec.NewBitVecFromBytes e) encryptedPairs proof
        (rangeVal / 3) (2 * (rangeVal / 3)) cipherX i
      = Except.ok (decide
          (encFormula ek.N o.W1 o.R1 = c1 ∧ encFormula ek.N o.W2 o.R2 = c2 ∧
            ((o.W1 < rangeVal / 3 ∧ rangeVal / 3 < o.W2 ∧ o.W2 < 2 * (rangeVal / 3)) ∨
             (o.W2 < rangeVal / 3 ∧ rangeVal / 3 < o.W1 ∧ o.W1 < 2 * (rangeVal / 3))))) := by
  rw [verifyRepetition_open enc ek _ _ _ _ _ _ i response o _ _ c1 c2 hbit hresp hopen
    (henc _ _) (henc _ _) hc1 hc2]
  congr 1
  rw [Bool.eq_iff_iff]
  simp only [Bool.or_eq_true, Bool.and_eq_true, decide_eq_true_eq, gt_iff_lt]
  tauto

/-- C4 (amended), at `N = 7`, `rangeVal = 9`, the Open response
`(W1, R1, W2, R2) = (1, 2, 4, 3)` and the pair `(44, 17)`: the repetition
passes. -/
theorem C4_open_branch_witness :
    MeetsContract encryptAllocated (PublicKey.mk 7) ∧
    bitvec.GetBit (bitvec.NewBitVecFromBytes [0]) 0 = Except.ok false ∧
    verifyRepetition encryptAllocated (PublicKey.mk 7) (bitvec.NewBitVecFromBytes [0])
        { C1 := [44], C2 := [17] }
        { Responses := [{ Open := some { W1 := 1, R1 := 2, W2 := 4, R2 := 3 }, Mask := none }] }
        (9 / 3) (2 * (9 / 3)) 1 0
      = Except.ok (decide
          (encFormula 7 1 2 = 44 ∧ encFormula 7 4 3 = 17 ∧
            (((1 : Int) < 9 / 3 ∧ (9 : Int) / 3 < 4 ∧ (4 : Int) < 2 * (9 / 3)) ∨
             ((4 : Int) < 9 / 3 ∧ (9 : Int) / 3 < 1 ∧ (1 : Int) < 2 * (9 / 3))))) :=
  ⟨MeetsContract_encryptAllocated _ (by decide), by decide,
    C4_open_branch encryptAllocated (PublicKey.mk 7) [0] { C1 := [44], C2 := [17] }
      { Responses := [{ Open := some { W1 := 1, R1 := 2, W2 := 4, R2 := 3 }, Mask := none }] }
      9 1 0 { Open := some { W1 := 1, R1 := 2, W2 := 4, R2 := 3 }, Mask := none }
      { W1 := 1, R1 := 2, W2 := 4, R2 := 3 } 44 17
      (MeetsContract_encryptAllocated _ (by decide)) (by decide) rfl rfl rfl rfl⟩

/-- C4 (counterexample). At `N = 7`, `rangeVal = 9` (`third = 3`), the Open
response `(W1, R1, W2, R2) = (3, 2, 4, 3)` and the pair `(23, 17)`: both
ciphertexts match, `W1 ≤ third` and `W2` is strictly inside `(3, 6)`, and the
repetition does not pass: it fails with the local variables of the encryption
allocated, and panics in the source as written. -/
theorem C4_counterexample :
    (encFormula 7 3 2 = 23 ∧ encFormula 7 4 3 = 17 ∧
      (3 : Int) ≤ 9 / 3 ∧ (9 : Int) / 3 < 4 ∧ (4 : Int) < 2 * (9 / 3)) ∧
    bitvec.GetBit (bitvec.NewBitVecFromBytes [0]) 0 = Except.ok false ∧
    verifyRepetition encryptAllocated (PublicKey.mk 7) (bitvec.NewBitVecFromBytes [0])
        { C1 := [23], C2 := [17] }
        { Responses := [{ Open := some { W1 := 3, R1 := 2, W2 := 4, R2 := 3 }, Mask := none }] }
        (9 / 3) (2 * (9 / 3)) 1 0 = Except.ok false ∧
    verifyRepetition EncryptWithChosenRandomness (PublicKey.mk 7)
        (bitvec.NewBitVecFromBytes [0]) { C1 := [23], C2 := [17] }
        { Responses := [{ Open := some { W1 := 3, R1 := 2, W2 := 4, R2 := 3 }, Mask := none }] }
        (9 / 3) (2 * (9 / 3)) 1 0 = Except.error GoPanic.nilDereference := by
  refine ⟨?_, ?_, ?_, ?_⟩ <;> decide

end paillier

namespace paillier

theorem verifyRepetition_mask_source (ek : PublicKey) (bitsOfE : bitvec.BitVec)
    (encryptedPairs : EncryptedPairs) (proof : Proof) (third twoThirds cipherX : Int) (i : Nat)
    (response : Response) (mk : Mask) (cJ : Int)
    (hbit : bitvec.GetBit bitsOfE i = Except.ok true)
    (hresp : proof.Responses[i]? = some response) (hmask : response.Mask = some mk)
    (hcJ : (if mk.J = 1 then encryptedPairs.C1 else encryptedPairs.C2)[i]? = some cJ)
    (hn2 : ek.n2 ≠ 0) :
    verifyRepetition EncryptWithChosenRandomness ek bitsOfE encryptedPairs proof third twoThirds
      cipherX i = Except.error GoPanic.nilDereference := by
  unfold verifyRepetition
  rw [hbit, bind_ok, index_eq_ok _ _ _ hresp, bind_ok]
  simp only [Bool.not_true, hmask, Bool.false_eq_true, if_false]
  by_cases hJ : mk.J = 1
  · rw [if_pos hJ] at hcJ ⊢
    rw [index_eq_ok _ _ _ hcJ, bind_ok]
    simp only [bigMod, newInt, deref, bind_ok, pure_eq_ok, hn2, if_false,
      EncryptWithChosenRandomness_eq, bind_error]
  · rw [if_neg hJ] at hcJ ⊢
    rw [index_eq_ok _ _ _ hcJ, bind_ok]
    simp only [bigMod, newInt, deref, bind_ok, pure_eq_ok, hn2, if_false,
      EncryptWithChosenRandomness_eq, bind_error]

/-- C5 (code defect). For a repetition `i` with challenge bit 1, a Mask
response with selector `J` in `{1, 2}` and the committed ciphertext `C_J[i]`
present, under a key with `N ≥ 1`: with an encryption routine that returns the
value of the formula the repetition passes exactly when
`(C_J[i] · cipherX) mod N² = Enc(MaskedX, MaskedR)` and
`third < MaskedX < twoThirds`, and fails otherwise; with the source's own
`EncryptWithChosenRandomness` the check panics on a nil dereference whether or
not the condition holds. -/
theorem C5_mask_branch (enc : PublicKey → Int → Int → Go Int) (ek : PublicKey) (e : List Nat)
    (encryptedPairs : EncryptedPairs) (proof : Proof) (rangeVal cipherX : Int) (i : Nat)
    (response : Response) (mk : Mask) (cJ : Int)
    (henc : MeetsContract enc ek) (hN : 1 ≤ ek.N)
    (hbit : bitvec.GetBit (bitvec.NewBitVecFromBytes e) i = Except.ok true)
    (hresp : proof.Responses[i]? = some response) (hmask : response.Mask = some mk)
    (_hJ : mk.J = 1 ∨ mk.J = 2)
    (hcJ : (if mk.J = 1 then encryptedPairs.C1 else encryptedPairs.C2)[i]? = some cJ) :
    verifyRepetition enc ek (bitvec.NewBitVecFromBytes e) encryptedPairs proof
        (rangeVal / 3) (2 * (rangeVal / 3)) cipherX i
      = Except.ok (decide
          (cJ * cipherX % ek.N ^ 2 = encFormula ek.N mk.MaskedX mk.MaskedR ∧
            rangeVal / 3 < mk.MaskedX ∧ mk.MaskedX < 2 * (rangeVal / 3))) ∧
    verifyRepetition EncryptWithChosenRandomness ek (bitvec.NewBitVecFromBytes e) encryptedPairs
        proof (rangeVal / 3) (2 * (rangeVal / 3)) cipherX i
      = Except.error GoPanic.nilDereference := by
  have hn2 : ek.n2 ≠ 0 := by
    unfold PublicKey.n2
    have : 0 < ek.N := hN
    exact mul_ne_zero (ne_of_gt this) (ne_of_gt this)
  refine ⟨?_, verifyRepetition_mask_source ek _ _ _ _ _ _ i response mk cJ hbit hresp hmask hcJ
    hn2⟩
  rw [verifyRepetition_mask enc ek _ _ _ _ _ _ i response mk cJ _ hbit hresp hmask hcJ hn2
    (henc _ _), n2_eq_sq]
  congr 1
  rw [Bool.eq_iff_iff]
  simp only [Bool.and_eq_true, decide_eq_true_eq, gt_iff_lt]
  tauto

/-- C5, at `N = 7`, `rangeVal = 9`, the Mask response
`(J, MaskedX, MaskedR) = (1, 5, 6)`, `C1[0] = 44 = Enc(1, 2)` and
`cipherX = 17 = Enc(4, 3)`: the condition of the claim holds and the source's
check panics. -/
theorem C5_mask_branch_witness :
    (44 * 17 % 7 ^ 2 = encFormula 7 5 6 ∧ (9 : Int) / 3 < 5 ∧ (5 : Int) < 2 * (9 / 3)) ∧
    verifyRepetition EncryptWithChosenRandomness (PublicKey.mk 7)
        (bitvec.NewBitVecFromBytes [128]) { C1 := [44], C2 := [17] }
        { Responses := [{ Open := none, Mask := some { J := 1, MaskedX := 5, MaskedR := 6 } }] }
        (9 / 3) (2 * (9 / 3)) 17 0
      = Except.error GoPanic.nilDereference :=
  ⟨by decide,
    (C5_mask_branch encryptAllocated (PublicKey.mk 7) [128] { C1 := [44], C2 := [17] }
      { Responses := [{ Open := none, Mask := some { J := 1, MaskedX := 5, MaskedR := 6 } }] }
      9 17 0 { Open := none, Mask := some { J := 1, MaskedX := 5, MaskedR := 6 } }
      { J := 1, MaskedX := 5, MaskedR := 6 } 44
      (MeetsContract_encryptAllocated _ (by decide)) (by decide) (by decide) rfl rfl
      (Or.inl rfl) rfl).2⟩

end paillier

namespace paillier

theorem VerifierOutputWith_honest (enc : PublicKey → Int → Int → Go Int) (rnd : Draws)
    (ek : PublicKey) (rangeVal secretX secretR : Int) (e : List Nat) (n : Nat)
    (henc : MeetsContract enc ek) (hN : 0 < ek.N) (hd : rnd.Valid ek rangeVal n)
    (he : n ≤ bitvec.Len (bitvec.NewBitVecFromBytes e)) :
    VerifierOutputWith enc ek e (honestPairs rnd ek rangeVal n)
        (honestProof rnd ek rangeVal secretX secretR e n) rangeVal
        (encFormula ek.N secretX secretR) n
      = Except.ok (if ((List.range n).map fun i => honestVerdict rnd rangeVal secretX
            (bitvec.bitAt (bitvec.NewBitVecFromBytes e) i) i).all id
          then none else some (GoError.errorsNew "CorrectKeyProofError")) := by
  rw [VerifierOutputWith_unfold]
  rw [goFor_ok _ (fun i => honestVerdict rnd rangeVal secretX
      (bitvec.bitAt (bitvec.NewBitVecFromBytes e) i) i) n
      (fun i hi => verifyRepetition_honest enc rnd ek rangeVal secretX secretR e n i henc hN hi
        (hd i hi).1 he)]
  rw [bind_ok]
  split_ifs <;> rfl

theorem all_map_range_iff (g : Nat → Bool) (n : Nat) :
    ((List.range n).map g).all id = true ↔ ∀ i, i < n → g i = true := by
  rw [List.all_eq_true]
  constructor
  · intro h i hi
    exact h (g i) (List.mem_map.mpr ⟨i, List.mem_range.mpr hi, rfl⟩)
  · intro h x hx
    obtain ⟨i, hi, rfl⟩ := List.mem_map.mp hx
    exact h i (List.mem_range.mp hi)

theorem honestVerdict_middle (rnd : Draws) (rangeVal secretX : Int) (b : Bool) (i : Nat)
    (hx : rangeVal / 3 < secretX ∧ secretX < 2 * (rangeVal / 3))
    (hw : 0 ≤ rnd.w2 i ∧ rnd.w2 i < 2 * (rangeVal / 3) - rangeVal / 3) :
    honestVerdict rnd rangeVal secretX b i = true ↔
      (b = false → 0 < rnd.w2 i) ∧ (b = true → secretX + rnd.w2 i < 2 * (rangeVal / 3)) := by
  unfold honestVerdict
  cases b with
  | false => simp
  | true =>
    simp only [Bool.not_true, Bool.false_eq_true, if_false, decide_eq_true_eq]
    rcases drawW_cases rnd (rangeVal / 3) i with h | h <;> rw [h] <;> dsimp only <;>
      constructor
    · intro hh
      exact ⟨fun hb => (by cases hb), fun _ => by omega⟩
    · intro hh
      have := hh.2 trivial
      omega
    · intro hh
      exact ⟨fun hb => (by cases hb), fun _ => by omega⟩
    · intro hh
      have := hh.2 trivial
      omega

theorem honestVerdict_outside (rnd : Draws) (rangeVal secretX : Int) (i : Nat)
    (hout : secretX + rnd.w2 i ≤ 0 ∨ secretX + rnd.w2 i = rangeVal / 3 ∨
      2 * (rangeVal / 3) ≤ secretX + rnd.w2 i) :
    honestVerdict rnd rangeVal secretX true i = false := by
  unfold honestVerdict
  simp only [Bool.not_true, Bool.false_eq_true, if_false, decide_eq_false_iff_not]
  rcases drawW_cases rnd (rangeVal / 3) i with h | h <;> rw [h] <;> dsimp only <;>
    intro hh <;> omega

/-- C1 (amended). For an encryption routine that returns the value of the
formula, every key with `N ≥ 1`, every `secretX` with
`third < secretX < twoThirds`, every `secretR`, every outcome of the draws and
every challenge holding at least `errorFactor` bits, the pairs, the proof and
`cipherX` are produced, and `VerifierOutput` accepts exactly when, for every
repetition `i < errorFactor`, the draw `w2[i]` is positive if challenge bit `i`
is 0 and `secretX + w2[i] < twoThirds` if it is 1; otherwise it returns
`CorrectKeyProofError`. -/
theorem C1_completeness (enc : PublicKey → Int → Int → Go Int) (rnd : Draws) (ek : PublicKey)
    (rangeVal secretX secretR : Int) (e : List Nat) (errorFactor : Nat)
    (henc : MeetsContract enc ek) (hN : 1 ≤ ek.N)
    (hx : rangeVal / 3 < secretX ∧ secretX < 2 * (rangeVal / 3))
    (hd : rnd.Valid ek rangeVal errorFactor)
    (he : errorFactor ≤ bitvec.Len (bitvec.NewBitVecFromBytes e)) :
    ∃ pairs data proof cipherX,
      GenerateEncryptedPairsWith enc rnd ek rangeVal errorFactor = Except.ok (pairs, data) ∧
      GenerateProof ek secretX secretR e rangeVal data errorFactor = Except.ok proof ∧
      enc ek secretX secretR = Except.ok cipherX ∧
      (VerifierOutputWith enc ek e pairs proof rangeVal cipherX errorFactor = Except.ok none ↔
        ∀ i, i < errorFactor →
          (bitvec.GetBit (bitvec.NewBitVecFromBytes e) i = Except.ok false → 0 < rnd.w2 i) ∧
          (bitvec.GetBit (bitvec.NewBitVecFromBytes e) i = Except.ok true →
            secretX + rnd.w2 i < 2 * (rangeVal / 3))) ∧
      (VerifierOutputWith enc ek e pairs proof rangeVal cipherX errorFactor = Except.ok none ∨
       VerifierOutputWith enc ek e pairs proof rangeVal cipherX errorFactor
         = Except.ok (some (GoError.errorsNew "CorrectKeyProofError"))) := by
  have hN0 : 0 < ek.N := hN
  refine ⟨honestPairs rnd ek rangeVal errorFactor, honestData rnd rangeVal errorFactor,
    honestProof rnd ek rangeVal secretX secretR e errorFactor, encFormula ek.N secretX secretR,
    GenerateEncryptedPairsWith_contract enc rnd ek rangeVal errorFactor henc,
    GenerateProof_honest rnd ek rangeVal secretX secretR e errorFactor (ne_of_gt hN0) he,
    henc _ _, ?_, ?_⟩
  · rw [VerifierOutputWith_honest enc rnd ek rangeVal secretX secretR e errorFactor henc hN0 hd he]
    constructor
    · intro h i hi
      have hall : ((List.range errorFactor).map fun i => honestVerdict rnd rangeVal secretX
          (bitvec.bitAt (bitvec.NewBitVecFromBytes e) i) i).all id = true := by
        by_contra hne
        rw [if_neg hne] at h
        cases h
      have hv := (all_map_range_iff _ _).mp hall i hi
      have hm := (honestVerdict_middle rnd rangeVal secretX _ i hx (hd i hi).1).mp hv
      have hbit := bitvec.GetBit_of_lt (bitvec.NewBitVecFromBytes e) i (lt_of_lt_of_le hi he)
      constructor
      · intro hb
        rw [hbit] at hb
        injection hb with hb
        exact hm.1 hb
      · intro hb
        rw [hbit] at hb
        injection hb with hb
        exact hm.2 hb
    · intro h
      have hall : ((List.range errorFactor).map fun i => honestVerdict rnd rangeVal secretX
          (bitvec.bitAt (bitvec.NewBitVecFromBytes e) i) i).all id = true := by
        rw [all_map_range_iff]
        intro i hi
        have hbit := bitvec.GetBit_of_lt (bitvec.NewBitVecFromBytes e) i (lt_of_lt_of_le hi he)
        rw [honestVerdict_middle rnd rangeVal secretX _ i hx (hd i hi).1]
        exact ⟨fun hb => (h i hi).1 (by rw [hbit, hb]), fun hb => (h i hi).2 (by rw [hbit, hb])⟩
      rw [if_pos hall]
  · rw [VerifierOutputWith_honest enc rnd ek rangeVal secretX secretR e errorFactor henc hN0 hd he]
    split_ifs
    · exact Or.inl rfl
    · exact Or.inr rfl

theorem sampleDraws_valid (n : Nat) : Draws.Valid sampleDraws (PublicKey.mk 7) 9 n := by
  intro i _
  refine ⟨⟨?_, ?_⟩, Nat.mod_lt _ (by decide), ⟨?_, ?_⟩, ⟨?_, ?_⟩⟩ <;>
    simp only [sampleDraws] <;> decide

/-- C1 (amended), at `N = 7`, `rangeVal = 9`, `secretX = 4`, `secretR = 3`, two
repetitions, the challenge byte `0x40` (bits 0, 1) and the draws `sampleDraws`:
the verifier accepts. -/
theorem C1_completeness_witness :
    MeetsContract encryptAllocated (PublicKey.mk 7) ∧ (1 : Int) ≤ (PublicKey.mk 7).N ∧
    ((9 : Int) / 3 < 4 ∧ (4 : Int) < 2 * (9 / 3)) ∧
    2 ≤ bitvec.Len (bitvec.NewBitVecFromBytes [64]) ∧
    ∃ pairs data proof cipherX,
      GenerateEncryptedPairsWith encryptAllocated
        sampleDraws (PublicKey.mk 7) 9 2 = Except.ok (pairs, data) ∧
      GenerateProof (PublicKey.mk 7) 4 3 [64] 9 data 2 = Except.ok proof ∧
      encryptAllocated (PublicKey.mk 7) 4 3 = Except.ok cipherX ∧
      VerifierOutputWith encryptAllocated (PublicKey.mk 7) [64] pairs proof 9 cipherX 2
        = Except.ok none := by
  have hc := MeetsContract_encryptAllocated (PublicKey.mk 7) (by decide)
  obtain ⟨pairs, data, proof, cipherX, h1, h2, h3, h4, _⟩ :=
    C1_completeness encryptAllocated sampleDraws (PublicKey.mk 7) 9 4 3 [64] 2 hc (by decide)
      (by decide) (sampleDraws_valid 2) (by decide)
  refine ⟨hc, by decide, by decide, by decide, pairs, data, proof, cipherX, h1, h2, h3, ?_⟩
  rw [h4]
  intro i _
  simp only [sampleDraws]
  exact ⟨fun _ => by decide, fun _ => by decide⟩

/-- C1 (counterexample). At `N = 7`, `rangeVal = 9` (`third = 3`,
`twoThirds = 6`), `secretX = 5`, `secretR = 3`, one repetition, the challenge
byte `0x80` (bit 1) and the draws `w2 = 2`, no swap, `r1 = 2`, `r2 = 3`: the
source's `GenerateEncryptedPairs` panics, and with the local variables of the
encryption allocated the verifier rejects the proof that `GenerateProof`
builds. -/
theorem C1_counterexample :
    ((9 : Int) / 3 < 5 ∧ (5 : Int) < 2 * (9 / 3)) ∧
    GenerateEncryptedPairs
      { w2 := fun _ => 2, coin := fun _ => 1, r1 := fun _ => 2, r2 := fun _ => 3 }
      (PublicKey.mk 7) 9 1 = Except.error GoPanic.nilDereference ∧
    GenerateEncryptedPairsWith encryptAllocated
      { w2 := fun _ => 2, coin := fun _ => 1, r1 := fun _ => 2, r2 := fun _ => 3 }
      (PublicKey.mk 7) 9 1
      = Except.ok ({ C1 := [2], C2 := [24] }, { W1 := [5], W2 := [2], R1 := [2], R2 := [3] }) ∧
    GenerateProof (PublicKey.mk 7) 5 3 [128] 9 { W1 := [5], W2 := [2], R1 := [2], R2 := [3] } 1
      = Except.ok { Responses :=
          [{ Open := none, Mask := some { J := 2, MaskedX := 7, MaskedR := 2 } }] } ∧
    encryptAllocated (PublicKey.mk 7) 5 3 = Except.ok 38 ∧
    VerifierOutputWith encryptAllocated (PublicKey.mk 7) [128] { C1 := [2], C2 := [24] }
      { Responses := [{ Open := none, Mask := some { J := 2, MaskedX := 7, MaskedR := 2 } }] }
      9 38 1 = Except.ok (some (GoError.errorsNew "CorrectKeyProofError")) := by
  refine ⟨?_, ?_, ?_, ?_, ?_, ?_⟩ <;> decide

end paillier

namespace paillier

/-- C2 (amended). For an encryption routine that returns the value of the
formula, every key with `N ≥ 1`, every outcome of the draws and every challenge
holding at least `errorFactor` bits: when some repetition `i < errorFactor` has
challenge bit 1 and `secretX + w2[i]` is `≤ 0`, `= third` or `≥ twoThirds`
(as it is at every repetition when `secretX ≥ twoThirds` or
`secretX ≤ -third`), the Mask response that `GenerateProof` builds for `i`
fails the range check and `VerifierOutput` returns `CorrectKeyProofError`. -/
theorem C2_out_of_range_rejected (enc : PublicKey → Int → Int → Go Int) (rnd : Draws)
    (ek : PublicKey) (rangeVal secretX secretR : Int) (e : List Nat) (errorFactor i : Nat)
    (henc : MeetsContract enc ek) (hN : 1 ≤ ek.N)
    (hd : rnd.Valid ek rangeVal errorFactor)
    (he : errorFactor ≤ bitvec.Len (bitvec.NewBitVecFromBytes e))
    (hi : i < errorFactor)
    (hbit : bitvec.GetBit (bitvec.NewBitVecFromBytes e) i = Except.ok true)
    (hout : 2 * (rangeVal / 3) ≤ secretX ∨ secretX ≤ -(rangeVal / 3) ∨
      secretX + rnd.w2 i ≤ 0 ∨ secretX + rnd.w2 i = rangeVal / 3 ∨
      2 * (rangeVal / 3) ≤ secretX + rnd.w2 i) :
    ∃ pairs data proof cipherX,
      GenerateEncryptedPairsWith enc rnd ek rangeVal errorFactor = Except.ok (pairs, data) ∧
      GenerateProof ek secretX secretR e rangeVal data errorFactor = Except.ok proof ∧
      enc ek secretX secretR = Except.ok cipherX ∧
      VerifierOutputWith enc ek e pairs proof rangeVal cipherX errorFactor
        = Except.ok (some (GoError.errorsNew "CorrectKeyProofError")) := by
  have hN0 : 0 < ek.N := hN
  refine ⟨honestPairs rnd ek rangeVal errorFactor, honestData rnd rangeVal errorFactor,
    honestProof rnd ek rangeVal secretX secretR e errorFactor, encFormula ek.N secretX secretR,
    GenerateEncryptedPairsWith_contract enc rnd ek rangeVal errorFactor henc,
    GenerateProof_honest rnd ek rangeVal secretX secretR e errorFactor (ne_of_gt hN0) he,
    henc _ _, ?_⟩
  rw [VerifierOutputWith_honest enc rnd ek rangeVal secretX secretR e errorFactor henc hN0 hd he]
  have hb : bitvec.bitAt (bitvec.NewBitVecFromBytes e) i = true := by
    have h2 := bitvec.GetBit_of_lt (bitvec.NewBitVecFromBytes e) i (lt_of_lt_of_le hi he)
    rw [hbit] at h2
    injection h2 with h3
    exact h3.symm
  have hw := (hd i hi).1
  have hout2 : secretX + rnd.w2 i ≤ 0 ∨ secretX + rnd.w2 i = rangeVal / 3 ∨
      2 * (rangeVal / 3) ≤ secretX + rnd.w2 i := by omega
  have hfalse := honestVerdict_outside rnd rangeVal secretX i hout2
  have hnot : ¬ (((List.range errorFactor).map fun i => honestVerdict rnd rangeVal secretX
      (bitvec.bitAt (bitvec.NewBitVecFromBytes e) i) i).all id = true) := by
    intro hall
    have := (all_map_range_iff _ _).mp hall i hi
    rw [hb, hfalse] at this
    cases this
  rw [if_neg hnot]

/-- C2 (amended), at `N = 7`, `rangeVal = 9`, `secretX = 6 = twoThirds`,
`secretR = 3`, one repetition, the challenge byte `0x80` (bit 1) and the draws
`sampleDraws`. -/
theorem C2_out_of_range_rejected_witness :
    MeetsContract encryptAllocated (PublicKey.mk 7) ∧ (1 : Int) ≤ (PublicKey.mk 7).N ∧
    bitvec.GetBit (bitvec.NewBitVecFromBytes [128]) 0 = Except.ok true ∧
    (2 * (9 / 3) : Int) ≤ 6 ∧
    ∃ pairs data proof cipherX,
      GenerateEncryptedPairsWith encryptAllocated sampleDraws (PublicKey.mk 7) 9 1
        = Except.ok (pairs, data) ∧
      GenerateProof (PublicKey.mk 7) 6 3 [128] 9 data 1 = Except.ok proof ∧
      encryptAllocated (PublicKey.mk 7) 6 3 = Except.ok cipherX ∧
      VerifierOutputWith encryptAllocated (PublicKey.mk 7) [128] pairs proof 9 cipherX 1
        = Except.ok (some (GoError.errorsNew "CorrectKeyProofError")) :=
  ⟨MeetsContract_encryptAllocated _ (by decide), by decide, by decide, by decide,
    C2_out_of_range_rejected encryptAllocated sampleDraws (PublicKey.mk 7) 9 6 3 [128] 1 0
      (MeetsContract_encryptAllocated _ (by decide)) (by decide) (sampleDraws_valid 1)
      (by decide) (by decide) (by decide) (Or.inl (by decide))⟩

/-- C2 (counterexample). At `N = 7`, `rangeVal = 9` (`third = 3`,
`twoThirds = 6`), `secretX = 0` (not inside `(3, 6)`), `secretR = 3`, two
repetitions, the challenge byte `0xC0` (bits 1, 1) and the draws
`w2 = 2, 1`, a swap at repetition 0 only, `r1 = 2`, `r2 = 3`: with the local
variables of the encryption allocated both Mask responses pass the range check
and `VerifierOutput` returns nil; the source's `VerifierOutput` panics and
returns no error either. -/
theorem C2_counterexample :
    ¬ ((9 : Int) / 3 < 0 ∧ (0 : Int) < 2 * (9 / 3)) ∧
    bitvec.GetBit (bitvec.NewBitVecFromBytes [192]) 0 = Except.ok true ∧
    GenerateEncryptedPairsWith encryptAllocated
      { w2 := fun i => if i = 0 then 2 else 1, coin := fun i => i, r1 := fun _ => 2,
        r2 := fun _ => 3 } (PublicKey.mk 7) 9 2
      = Except.ok ({ C1 := [9, 37], C2 := [38, 3] },
          { W1 := [2, 4], W2 := [5, 1], R1 := [2, 2], R2 := [3, 3] }) ∧
    GenerateProof (PublicKey.mk 7) 0 3 [192] 9
        { W1 := [2, 4], W2 := [5, 1], R1 := [2, 2], R2 := [3, 3] } 2
      = Except.ok { Responses :=
          [{ Open := none, Mask := some { J := 2, MaskedX := 5, MaskedR := 2 } },
           { Open := none, Mask := some { J := 1, MaskedX := 4, MaskedR := 6 } }] } ∧
    encryptAllocated (PublicKey.mk 7) 0 3 = Except.ok 31 ∧
    VerifierOutputWith encryptAllocated (PublicKey.mk 7) [192] { C1 := [9, 37], C2 := [38, 3] }
      { Responses :=
          [{ Open := none, Mask := some { J := 2, MaskedX := 5, MaskedR := 2 } },
           { Open := none, Mask := some { J := 1, MaskedX := 4, MaskedR := 6 } }] }
      9 31 2 = Except.ok none ∧
    VerifierOutput (PublicKey.mk 7) [192] { C1 := [9, 37], C2 := [38, 3] }
      { Responses :=
          [{ Open := none, Mask := some { J := 2, MaskedX := 5, MaskedR := 2 } },
           { Open := none, Mask := some { J := 1, MaskedX := 4, MaskedR := 6 } }] }
      9 31 2 = Except.error GoPanic.nilDereference := by
  refine ⟨?_, ?_, ?_, ?_, ?_, ?_, ?_⟩ <;> decide

end paillier

namespace paillier

theorem encFormula_plaintext_dvd (N m m' r : Int) (hN : 0 < N) (hr : Int.gcd r N = 1)
    (h : encFormula N m r = encFormula N m' r) : N ∣ m' - m := by
  have h1 : (1 + m * N) * r ^ N.toNat ≡ (1 + m' * N) * r ^ N.toNat [ZMOD N ^ 2] := by
    have h2 := encFormula_modEq N m' r
    rw [← h] at h2
    exact (encFormula_modEq N m r).symm.trans h2
  have h3 : N * N ∣ N * ((m' - m) * r ^ N.toNat) := by
    have h4 := Int.modEq_iff_dvd.mp h1
    have e : (1 + m' * N) * r ^ N.toNat - (1 + m * N) * r ^ N.toNat
        = N * ((m' - m) * r ^ N.toNat) := by ring
    rw [e, sq] at h4
    exact h4
  have h5 : N ∣ (m' - m) * r ^ N.toNat := (mul_dvd_mul_iff_left (ne_of_gt hN)).mp h3
  have hc : IsCoprime N (r ^ N.toNat) :=
    (Int.isCoprime_iff_gcd_eq_one.mpr hr).symm.pow_right
  exact hc.dvd_of_dvd_mul_right h5

theorem encFormula_plaintext_ne (N m m' r : Int) (hN : 0 < N) (hr : Int.gcd r N = 1)
    (hne : m' ≠ m) (hlt : |m' - m| < N) : encFormula N m' r ≠ encFormula N m r := by
  intro h
  have hd := encFormula_plaintext_dvd N m m' r hN hr h.symm
  have := Int.eq_zero_of_abs_lt_dvd hd hlt
  exact hne (by omega)

theorem verifyRepetition_congr (enc : PublicKey → Int → Int → Go Int) (ek : PublicKey)
    (bitsOfE : bitvec.BitVec) (encryptedPairs : EncryptedPairs) (proof proof' : Proof)
    (third twoThirds cipherX : Int) (i : Nat)
    (h : proof.Responses[i]? = proof'.Responses[i]?) :
    verifyRepetition enc ek bitsOfE encryptedPairs proof third twoThirds cipherX i =
      verifyRepetition enc ek bitsOfE encryptedPairs proof' third twoThirds cipherX i := by
  unfold verifyRepetition
  have : index proof.Responses i = index proof'.Responses i := by
    unfold index
    rw [h]
  simp only [this]

theorem verifyRepetition_open_inv (enc : PublicKey → Int → Int → Go Int) (ek : PublicKey)
    (bitsOfE : bitvec.BitVec) (encryptedPairs : EncryptedPairs) (proof : Proof)
    (third twoThirds cipherX : Int) (i : Nat) (response : Response) (o : Open) (e1 e2 : Int)
    (hbit : bitvec.GetBit bitsOfE i = Except.ok false)
    (hresp : proof.Responses[i]? = some response) (hopen : response.Open = some o)
    (h1 : enc ek o.W1 o.R1 = Except.ok e1) (h2 : enc ek o.W2 o.R2 = Except.ok e2)
    (hok : verifyRepetition enc ek bitsOfE encryptedPairs proof third twoThirds cipherX i
      = Except.ok true) :
    encryptedPairs.C1[i]? = some e1 ∧ encryptedPairs.C2[i]? = some e2 := by
  cases hc1 : encryptedPairs.C1[i]? with
  | none =>
    exfalso
    unfold verifyRepetition at hok
    rw [hbit, bind_ok, index_eq_ok _ _ _ hresp, bind_ok] at hok
    simp only [Bool.not_false, if_true, hopen] at hok
    rw [h1, bind_ok, h2, bind_ok, index_eq_error _ _ (List.getElem?_eq_none_iff.mp hc1),
      bind_error] at hok
    cases hok
  | some c1 =>
    cases hc2 : encryptedPairs.C2[i]? with
    | none =>
      exfalso
      unfold verifyRepetition at hok
      rw [hbit, bind_ok, index_eq_ok _ _ _ hresp, bind_ok] at hok
      simp only [Bool.not_false, if_true, hopen] at hok
      rw [h1, bind_ok, h2, bind_ok, index_eq_ok _ _ _ hc1, bind_ok] at hok
      by_cases he1 : e1 = c1
      · rw [if_pos he1, index_eq_error _ _ (List.getElem?_eq_none_iff.mp hc2), bind_error] at hok
        cases hok
      · rw [if_neg he1] at hok
        simp only [pure_eq_ok, bind_ok, Bool.false_and] at hok
        cases hok
    | some c2 =>
      rw [verifyRepetition_open enc ek _ _ _ _ _ _ i response o e1 e2 c1 c2 hbit hresp hopen
        h1 h2 hc1 hc2] at hok
      injection hok with hok
      by_cases he1 : e1 = c1
      · by_cases he2 : e2 = c2
        · rw [he1, he2]
          exact ⟨rfl, rfl⟩
        · simp [he2] at hok
      · simp [he1] at hok

theorem verifyRepetition_mask_inv (enc : PublicKey → Int → Int → Go Int) (ek : PublicKey)
    (bitsOfE : bitvec.BitVec) (encryptedPairs : EncryptedPairs) (proof : Proof)
    (third twoThirds cipherX : Int) (i : Nat) (response : Response) (mk : Mask) (z : Int)
    (hbit : bitvec.GetBit bitsOfE i = Except.ok true)
    (hresp : proof.Responses[i]? = some response) (hmask : response.Mask = some mk)
    (hn2 : ek.n2 ≠ 0) (hz : enc ek mk.MaskedX mk.MaskedR = Except.ok z)
    (hok : verifyRepetition enc ek bitsOfE encryptedPairs proof third twoThirds cipherX i
      = Except.ok true) :
    ∃ cJ, (if mk.J = 1 then encryptedPairs.C1 else encryptedPairs.C2)[i]? = some cJ ∧
      cJ * cipherX % ek.n2 = z := by
  cases hcJ : (if mk.J = 1 then encryptedPairs.C1 else encryptedPairs.C2)[i]? with
  | none =>
    exfalso
    unfold verifyRepetition at hok
    rw [hbit, bind_ok, index_eq_ok _ _ _ hresp, bind_ok] at hok
    simp only [Bool.not_true, hmask, Bool.false_eq_true, if_false] at hok
    by_cases hJ : mk.J = 1
    · rw [if_pos hJ] at hcJ hok
      rw [index_eq_error _ _ (List.getElem?_eq_none_iff.mp hcJ), bind_error] at hok
      cases hok
    · rw [if_neg hJ] at hcJ hok
      rw [index_eq_error _ _ (List.getElem?_eq_none_iff.mp hcJ), bind_error] at hok
      cases hok
  | some cJ =>
    rw [verifyRepetition_mask enc ek _ _ _ _ _ _ i response mk cJ z hbit hresp hmask hcJ hn2 hz]
      at hok
    injection hok with hok
    refine ⟨cJ, rfl, ?_⟩
    by_contra hne
    simp [hne] at hok

end paillier

namespace paillier

/-- C6 (amended). For an encryption routine that returns the value of the
formula and a key with `N ≥ 1`: on every input that `VerifierOutput` accepts,
replacing in one response `i < errorFactor` the plaintext field of the variant
that challenge bit `i` selects (`W1` or `W2` of an Open for bit 0, `MaskedX` of
a Mask for bit 1) by a different value less than `N` away from it, the
randomness next to it (`R1`, `R2`, `MaskedR`) being coprime to `N`, makes
`VerifierOutput` return `CorrectKeyProofError`. -/
theorem C6_tamper_detected (enc : PublicKey → Int → Int → Go Int) (ek : PublicKey) (e : List Nat)
    (encryptedPairs : EncryptedPairs) (proof : Proof) (rangeVal cipherX : Int)
    (errorFactor i : Nat) (response response' : Response)
    (henc : MeetsContract enc ek) (hN : 1 ≤ ek.N)
    (hacc : VerifierOutputWith enc ek e encryptedPairs proof rangeVal cipherX errorFactor
      = Except.ok none)
    (hi : i < errorFactor) (hresp : proof.Responses[i]? = some response)
    (ht :
      (∃ o w, bitvec.GetBit (bitvec.NewBitVecFromBytes e) i = Except.ok false ∧
        response.Open = some o ∧ w ≠ o.W1 ∧ |w - o.W1| < ek.N ∧ Int.gcd o.R1 ek.N = 1 ∧
        response' = { response with Open := some { o with W1 := w } }) ∨
      (∃ o w, bitvec.GetBit (bitvec.NewBitVecFromBytes e) i = Except.ok false ∧
        response.Open = some o ∧ w ≠ o.W2 ∧ |w - o.W2| < ek.N ∧ Int.gcd o.R2 ek.N = 1 ∧
        response' = { response with Open := some { o with W2 := w } }) ∨
      (∃ mk x, bitvec.GetBit (bitvec.NewBitVecFromBytes e) i = Except.ok true ∧
        response.Mask = some mk ∧ x ≠ mk.MaskedX ∧ |x - mk.MaskedX| < ek.N ∧
        Int.gcd mk.MaskedR ek.N = 1 ∧
        response' = { response with Mask := some { mk with MaskedX := x } })) :
    VerifierOutputWith enc ek e encryptedPairs { Responses := proof.Responses.set i response' }
        rangeVal cipherX errorFactor
      = Except.ok (some (GoError.errorsNew "CorrectKeyProofError")) := by
  have hN0 : 0 < ek.N := hN
  have hn2 : ek.n2 ≠ 0 := by
    unfold PublicKey.n2
    exact mul_ne_zero (ne_of_gt hN0) (ne_of_gt hN0)
  have hall := (VerifierOutputWith_nil_iff enc ek e encryptedPairs proof rangeVal cipherX
    errorFactor).mp hacc
  have hok := hall i hi
  have hlen : i < proof.Responses.length := (List.getElem?_eq_some.mp hresp).1
  have hresp' : (Proof.mk (proof.Responses.set i response')).Responses[i]? = some response' :=
    List.getElem?_set_self hlen
  have hfalse : verifyRepetition enc ek (bitvec.NewBitVecFromBytes e) encryptedPairs
      { Responses := proof.Responses.set i response' } (rangeVal / 3) (2 * (rangeVal / 3))
      cipherX i = Except.ok false := by
    rcases ht with ⟨o, w, hbit, hopen, hne, hlt, hgcd, hr'⟩ | ⟨o, w, hbit, hopen, hne, hlt, hgcd, hr'⟩ |
      ⟨mk, x, hbit, hmask, hne, hlt, hgcd, hr'⟩
    · obtain ⟨hc1, hc2⟩ := verifyRepetition_open_inv enc ek _ _ _ _ _ _ i response o _ _ hbit
        hresp hopen (henc _ _) (henc _ _) hok
      rw [verifyRepetition_open enc ek _ _ _ _ _ _ i response' { o with W1 := w } _ _ _ _ hbit
        hresp' (by rw [hr']) (henc _ _) (henc _ _) hc1 hc2]
      have hx := encFormula_plaintext_ne ek.N o.W1 w o.R1 hN0 hgcd hne hlt
      simp only [hx, decide_False, Bool.false_and]
    · obtain ⟨hc1, hc2⟩ := verifyRepetition_open_inv enc ek _ _ _ _ _ _ i response o _ _ hbit
        hresp hopen (henc _ _) (henc _ _) hok
      rw [verifyRepetition_open enc ek _ _ _ _ _ _ i response' { o with W2 := w } _ _ _ _ hbit
        hresp' (by rw [hr']) (henc _ _) (henc _ _) hc1 hc2]
      have hx := encFormula_plaintext_ne ek.N o.W2 w o.R2 hN0 hgcd hne hlt
      simp only [hx, decide_False, Bool.false_and, Bool.and_false]
    · obtain ⟨cJ, hcJ, hceq⟩ := verifyRepetition_mask_inv enc ek _ _ _ _ _ _ i response mk _
        hbit hresp hmask hn2 (henc _ _) hok
      rw [verifyRepetition_mask enc ek _ _ _ _ _ _ i response' { mk with MaskedX := x } cJ _
        hbit hresp' (by rw [hr']) hcJ hn2 (henc _ _)]
      have hx := encFormula_plaintext_ne ek.N mk.MaskedX x mk.MaskedR hN0 hgcd hne hlt
      have hx2 : ¬ (cJ * cipherX % ek.n2 = encFormula ek.N x mk.MaskedR) := by
        rw [hceq]
        exact fun h => hx h.symm
      simp only [hx2, decide_False, Bool.false_and]
  rw [VerifierOutputWith_error_iff]
  refine ⟨rfl, fun j hj => ?_, i, hi, hfalse⟩
  by_cases hji : j = i
  · rw [hji]
    exact ⟨false, hfalse⟩
  · refine ⟨true, ?_⟩
    rw [← verifyRepetition_congr enc ek _ _ proof { Responses := proof.Responses.set i response' }
      _ _ _ j (by rw [List.getElem?_set_ne (Ne.symm hji)])]
    exact hall j hj

/-- C6 (amended), at `N = 7`, `rangeVal = 9`, one repetition with challenge
bit 0, the pair `(44, 17)` and the Open response `(1, 2, 4, 3)`: the verifier
accepts, and rejects once `W1 = 1` is replaced by `2`. -/
theorem C6_tamper_detected_witness :
    VerifierOutputWith encryptAllocated (PublicKey.mk 7) [0] { C1 := [44], C2 := [17] }
      { Responses := [{ Open := some { W1 := 1, R1 := 2, W2 := 4, R2 := 3 }, Mask := none }] }
      9 17 1 = Except.ok none ∧
    VerifierOutputWith encryptAllocated (PublicKey.mk 7) [0] { C1 := [44], C2 := [17] }
      { Responses := [{ Open := some { W1 := 2, R1 := 2, W2 := 4, R2 := 3 }, Mask := none }] }
      9 17 1 = Except.ok (some (GoError.errorsNew "CorrectKeyProofError")) :=
  ⟨by decide,
    C6_tamper_detected encryptAllocated (PublicKey.mk 7) [0] { C1 := [44], C2 := [17] }
      { Responses := [{ Open := some { W1 := 1, R1 := 2, W2 := 4, R2 := 3 }, Mask := none }] }
      9 17 1 0 { Open := some { W1 := 1, R1 := 2, W2 := 4, R2 := 3 }, Mask := none }
      { Open := some { W1 := 2, R1 := 2, W2 := 4, R2 := 3 }, Mask := none }
      (MeetsContract_encryptAllocated _ (by decide)) (by decide) (by decide) (by decide) rfl
      (Or.inl ⟨{ W1 := 1, R1 := 2, W2 := 4, R2 := 3 }, 2, by decide, rfl, by decide, by decide,
        by decide, rfl⟩)⟩

/-- C6 (counterexample). The scenario `rangeVal = 900000`, `secretX = 450000`,
`errorFactor = 4`, challenge bits `0, 1, 0, 1` (byte `0x50`), with `N = 35`,
`secretR = 3` and the draws `w2[i] = 100000 + i`, a swap at even `i`,
`r1[i] = 2 + i`, `r2[i] = 11 + i`: the source's `GenerateEncryptedPairs`
panics; with the local variables of the encryption allocated the verifier
accepts the proof, and still accepts it after `R1` of response 0 is replaced
by `R1 + N`, and after `J = 2` of response 1 is replaced by `3`. -/
theorem C6_counterexample :
    GenerateEncryptedPairs
      { w2 := fun i => 100000 + i, coin := fun i => i % 2, r1 := fun i => 2 + i,
        r2 := fun i => 11 + i } (PublicKey.mk 35) 900000 4
      = Except.error GoPanic.nilDereference ∧
    GenerateEncryptedPairsWith encryptAllocated
      { w2 := fun i => 100000 + i, coin := fun i => i % 2, r1 := fun i => 2 + i,
        r2 := fun i => 11 + i } (PublicKey.mk 35) 900000 4
      = Except.ok ({ C1 := [718, 852, 79, 1025], C2 := [401, 73, 797, 294] },
          { W1 := [100000, 400001, 100002, 400003], W2 := [400000, 100001, 400002, 100003],
            R1 := [2, 3, 4, 5], R2 := [11, 12, 13, 14] }) ∧
    GenerateProof (PublicKey.mk 35) 450000 3 [80] 900000
        { W1 := [100000, 400001, 100002, 400003], W2 := [400000, 100001, 400002, 100003],
          R1 := [2, 3, 4, 5], R2 := [11, 12, 13, 14] } 4
      = Except.ok { Responses :=
          [{ Open := some { W1 := 100000, R1 := 2, W2 := 400000, R2 := 11 }, Mask := none },
           { Open := none, Mask := some { J := 2, MaskedX := 550001, MaskedR := 1 } },
           { Open := some { W1 := 100002, R1 := 4, W2 := 400002, R2 := 13 }, Mask := none },
           { Open := none, Mask := some { J := 2, MaskedX := 550003, MaskedR := 7 } }] } ∧
    encryptAllocated (PublicKey.mk 35) 450000 3 = Except.ok 257 ∧
    VerifierOutputWith encryptAllocated (PublicKey.mk 35) [80]
      { C1 := [718, 852, 79, 1025], C2 := [401, 73, 797, 294] }
      { Responses :=
          [{ Open := some { W1 := 100000, R1 := 2, W2 := 400000, R2 := 11 }, Mask := none },
           { Open := none, Mask := some { J := 2, MaskedX := 550001, MaskedR := 1 } },
           { Open := some { W1 := 100002, R1 := 4, W2 := 400002, R2 := 13 }, Mask := none },
           { Open := none, Mask := some { J := 2, MaskedX := 550003, MaskedR := 7 } }] }
      900000 257 4 = Except.ok none ∧
    VerifierOutputWith encryptAllocated (PublicKey.mk 35) [80]
      { C1 := [718, 852, 79, 1025], C2 := [401, 73, 797, 294] }
      { Responses :=
          [{ Open := some { W1 := 100000, R1 := 2 + 35, W2 := 400000, R2 := 11 }, Mask := none },
           { Open := none, Mask := some { J := 2, MaskedX := 550001, MaskedR := 1 } },
           { Open := some { W1 := 100002, R1 := 4, W2 := 400002, R2 := 13 }, Mask := none },
           { Open := none, Mask := some { J := 2, MaskedX := 550003, MaskedR := 7 } }] }
      900000 257 4 = Except.ok none ∧
    VerifierOutputWith encryptAllocated (PublicKey.mk 35) [80]
      { C1 := [718, 852, 79, 1025], C2 := [401, 73, 797, 294] }
      { Responses :=
          [{ Open := some { W1 := 100000, R1 := 2, W2 := 400000, R2 := 11 }, Mask := none },
           { Open := none, Mask := some { J := 3, MaskedX := 550001, MaskedR := 1 } },
           { Open := some { W1 := 100002, R1 := 4, W2 := 400002, R2 := 13 }, Mask := none },
           { Open := none, Mask := some { J := 2, MaskedX := 550003, MaskedR := 7 } }] }
      900000 257 4 = Except.ok none := by
  refine ⟨?_, ?_, ?_, ?_, ?_, ?_, ?_⟩ <;> decide

end paillier

/-! ## The bit vector and the digest -/

namespace bitvec

theorem NewBitVecFromBytes_length (bytes : List Nat) :
    (NewBitVecFromBytes bytes).length = (bytes.length + 3) / 4 := by
  unfold NewBitVecFromBytes
  by_cases h : bytes.length % 4 > 0
  · simp only [h, if_true, List.length_append, List.length_map, List.length_range,
      List.length_singleton]
    omega
  · simp only [h, if_false, List.length_map, List.length_range]
    omega

/-- C14. For a buffer of `n` bytes `NewBitVecFromBytes` has `ceil(n / 4)` words
(the least `c` with `n ≤ 4 · c`, which is `(n + 3) div 4`) and `Len` returns
`32 · ceil(n / 4)`; this is at least `8 · n`, and equal to `8 · n` exactly when
`n` is a multiple of 4; for five bytes it is 64. -/
theorem C14_Len (bytes : List Nat) :
    (NewBitVecFromBytes bytes).length = (bytes.length + 3) / 4 ∧
    (bytes.length ≤ 4 * (NewBitVecFromBytes bytes).length ∧
      4 * (NewBitVecFromBytes bytes).length < bytes.length + 4) ∧
    Len (NewBitVecFromBytes bytes) = 32 * ((bytes.length + 3) / 4) ∧
    8 * bytes.length ≤ Len (NewBitVecFromBytes bytes) ∧
    (Len (NewBitVecFromBytes bytes) = 8 * bytes.length ↔ bytes.length % 4 = 0) ∧
    (bytes.length = 5 → Len (NewBitVecFromBytes bytes) = 64) := by
  have h := NewBitVecFromBytes_length bytes
  unfold Len
  rw [h]
  refine ⟨rfl, ⟨by omega, by omega⟩, rfl, by omega, by omega, by omega⟩

/-- C14, at the five bytes `1, 2, 3, 4, 5`: two words and a length of 64, not
40. -/
theorem C14_Len_witness :
    [1, 2, 3, 4, 5].length = 5 ∧ Len (NewBitVecFromBytes [1, 2, 3, 4, 5]) = 64 :=
  ⟨rfl, (C14_Len [1, 2, 3, 4, 5]).2.2.2.2.2 rfl⟩

end bitvec

namespace paillier

theorem bytesAux_eq_digits (fuel n : Nat) (acc : List Nat) (h : n ≤ fuel) :
    bytesAux fuel n acc = (Nat.digits 256 n).reverse ++ acc := by
  induction fuel generalizing n acc with
  | zero =>
    have hn : n = 0 := by omega
    subst hn
    simp [bytesAux]
  | succ fuel ih =>
    unfold bytesAux
    by_cases hn : n = 0
    · subst hn
      simp
    · rw [if_neg hn, ih (n / 256) _ (by omega),
        Nat.digits_def' (by decide : 1 < 256) (Nat.pos_of_ne_zero hn)]
      simp

theorem bigBytes_eq_digits (v : Int) : bigBytes v = (Nat.digits 256 v.natAbs).reverse := by
  unfold bigBytes
  rw [bytesAux_eq_digits _ _ _ (le_refl _)]
  simp

theorem foldl_append_bytes (values : List Int) (written : List Nat) :
    values.foldl (fun written value => written ++ bigBytes value) written
      = written ++ (values.map bigBytes).flatten := by
  induction values generalizing written with
  | nil => simp
  | cons v vs ih =>
    simp only [List.foldl_cons, List.map_cons, List.flatten_cons]
    rw [ih, List.append_assoc]

theorem ComputeDigest_eq (sha256 : List Nat → List Nat) (values : List Int) :
    ComputeDigest sha256 values = sha256 (values.map bigBytes).flatten := by
  unfold ComputeDigest
  rw [foldl_append_bytes]
  simp

/-- C15. `ComputeDigest` is the hash of the concatenation, in order, of the
big-endian base-256 digits of the absolute value of each integer (none for
zero, no leading zero byte, nothing between two values); so two sequences with
the same concatenation have the same digest, and the distinct sequences
`[0x0102]` and `[0x01, 0x02]` do. -/
theorem C15_ComputeDigest (sha256 : List Nat → List Nat) (values values' : List Int) :
    ComputeDigest sha256 values
      = sha256 (values.map fun v => (Nat.digits 256 v.natAbs).reverse).flatten ∧
    ((values.map fun v => (Nat.digits 256 v.natAbs).reverse).flatten
        = (values'.map fun v => (Nat.digits 256 v.natAbs).reverse).flatten →
      ComputeDigest sha256 values = ComputeDigest sha256 values') ∧
    bigBytes 0 = [] ∧
    ([258] : List Int) ≠ [1, 2] ∧
    ComputeDigest sha256 [258] = ComputeDigest sha256 [1, 2] := by
  have hmap : ∀ vs : List Int, (vs.map bigBytes)
      = vs.map fun v => (Nat.digits 256 v.natAbs).reverse := by
    intro vs
    exact List.map_congr_left (fun v _ => bigBytes_eq_digits v)
  refine ⟨?_, ?_, by decide, by decide, ?_⟩
  · rw [ComputeDigest_eq, hmap]
  · intro h
    rw [ComputeDigest_eq, ComputeDigest_eq, hmap, hmap, h]
  · rw [ComputeDigest_eq, ComputeDigest_eq]
    have : (([258] : List Int).map bigBytes).flatten = (([1, 2] : List Int).map bigBytes).flatten := by
      decide
    rw [this]

theorem encFormula_add_mul_plaintext (N m r k : Int) :
    encFormula N (m + k * N) r = encFormula N m r := by
  apply encFormula_eq_of_modEq
  apply Int.ModEq.mul_right
  apply Int.modEq_iff_dvd.mpr
  exact ⟨-k, by ring⟩

theorem encFormula_add_mul_randomness (N m r k : Int) (hN : 0 ≤ N) :
    encFormula N m (r + k * N) = encFormula N m r := by
  apply encFormula_eq_of_modEq
  apply Int.ModEq.mul_left
  apply pow_modulus_congr N _ _ hN
  apply Int.modEq_iff_dvd.mpr
  exact ⟨-k, by ring⟩

/-- C19. `VerifierOutput` with `errorFactor = 0` returns nil for every key,
challenge, pairs, proof, `rangeVal` and `cipherX`; and `VerifySelf` returns nil
for every transcript whose `ErrorFactor` field is 0, whatever its key,
ciphertext, pairs and proof are. -/
theorem C19_zero_repetitions (sha256 : List Nat → List Nat) (ek : PublicKey) (e : List Nat)
    (encryptedPairs : EncryptedPairs) (proof : Proof) (rangeVal cipherX : Int) :
    VerifierOutput ek e encryptedPairs proof rangeVal cipherX 0 = Except.ok none ∧
    VerifySelf sha256 (RangeProofNi.mk ek rangeVal cipherX encryptedPairs proof 0)
      = Except.ok none :=
  ⟨rfl, rfl⟩

/-- C20 (code defect). For every modulus `N ≥ 1`, plaintext `m`, randomness `r`
and natural `k`, the body of `EncryptWithChosenRandomness` with its local
variables allocated returns the same ciphertext for `m + k·N` as for `m`, and
for `r + k·N` as for `r`; in the source as written the four encryptions return
no ciphertext, each panics on a nil dereference. -/
theorem C20_modulo_N (ek : PublicKey) (m r : Int) (k : Nat) (hN : 1 ≤ ek.N) :
    (∃ c, encryptAllocated ek m r = Except.ok c ∧
      encryptAllocated ek (m + k * ek.N) r = Except.ok c ∧
      encryptAllocated ek m (r + k * ek.N) = Except.ok c) ∧
    EncryptWithChosenRandomness ek m r = Except.error GoPanic.nilDereference ∧
    EncryptWithChosenRandomness ek (m + k * ek.N) r = Except.error GoPanic.nilDereference ∧
    EncryptWithChosenRandomness ek m (r + k * ek.N) = Except.error GoPanic.nilDereference := by
  have hN0 : 0 < ek.N := hN
  refine ⟨⟨encFormula ek.N m r, encryptAllocated_eq ek m r hN0, ?_, ?_⟩, rfl, rfl, rfl⟩
  · rw [encryptAllocated_eq ek _ r hN0, encFormula_add_mul_plaintext]
  · rw [encryptAllocated_eq ek m _ hN0, encFormula_add_mul_randomness _ _ _ _ (le_of_lt hN0)]

/-- C20, at `N = 7`, `m = 4`, `r = 3` and `k = 2`. -/
theorem C20_modulo_N_witness :
    (1 : Int) ≤ (PublicKey.mk 7).N ∧
    encryptAllocated (PublicKey.mk 7) 4 3 = Except.ok 17 ∧
    encryptAllocated (PublicKey.mk 7) (4 + 2 * 7) 3 = Except.ok 17 ∧
    encryptAllocated (PublicKey.mk 7) 4 (3 + 2 * 7) = Except.ok 17 ∧
    EncryptWithChosenRandomness (PublicKey.mk 7) 4 (3 + (2 : Nat) * (PublicKey.mk 7).N)
      = Except.error GoPanic.nilDereference :=
  ⟨by decide, by decide, by decide, by decide,
    (C20_modulo_N (PublicKey.mk 7) 4 3 2 (by decide)).2.2.2⟩

end paillier

namespace bitvec

theorem ReverseBits_lt (x : Nat) : ReverseBits x < 256 := by
  unfold ReverseBits
  omega

theorem testBit_ReverseBits_of_ge (x t : Nat) (h : 8 ≤ t) : (ReverseBits x).testBit t = false := by
  apply Nat.testBit_lt_two_pow
  calc ReverseBits x < 2 ^ 8 := ReverseBits_lt x
    _ ≤ 2 ^ t := Nat.pow_le_pow_right (by decide) h

theorem ReverseBits_div (x t : Nat) (h : t < 8) :
    ReverseBits x / 2 ^ t % 2 = x / 2 ^ (7 - t) % 2 := by
  unfold ReverseBits
  have h0 : x % 2 < 2 := Nat.mod_lt _ (by decide)
  have h1 : x / 2 % 2 < 2 := Nat.mod_lt _ (by decide)
  have h2 : x / 4 % 2 < 2 := Nat.mod_lt _ (by decide)
  have h3 : x / 8 % 2 < 2 := Nat.mod_lt _ (by decide)
  have h4 : x / 16 % 2 < 2 := Nat.mod_lt _ (by decide)
  have h5 : x / 32 % 2 < 2 := Nat.mod_lt _ (by decide)
  have h6 : x / 64 % 2 < 2 := Nat.mod_lt _ (by decide)
  have h7 : x / 128 % 2 < 2 := Nat.mod_lt _ (by decide)
  rw [Nat.div_one]
  interval_cases t <;> simp only [Nat.reduceSub, Nat.reducePow, Nat.pow_zero, Nat.div_one]
  all_goals
    generalize x % 2 = b0 at *
    generalize x / 2 % 2 = b1 at *
    generalize x / 4 % 2 = b2 at *
    generalize x / 8 % 2 = b3 at *
    generalize x / 16 % 2 = b4 at *
    generalize x / 32 % 2 = b5 at *
    generalize x / 64 % 2 = b6 at *
    generalize x / 128 % 2 = b7 at *
    omega

theorem testBit_ReverseBits (x t : Nat) (h : t < 8) :
    (ReverseBits x).testBit t = x.testBit (7 - t) := by
  rw [Nat.testBit_to_div_mod, Nat.testBit_to_div_mod, ReverseBits_div x t h]

theorem bitAt_eq_testBit (b : BitVec) (i : Nat) :
    bitAt b i = (b.getD (i / 32) 0).testBit (i % 32) := by
  unfold bitAt
  have hlt : 2 ^ (i % 32) < 2 ^ 32 := Nat.pow_lt_pow_right (by decide) (Nat.mod_lt _ (by decide))
  rw [Nat.one_shiftLeft, Nat.mod_eq_of_lt hlt, Nat.and_two_pow]
  have hpos : 0 < 2 ^ (i % 32) := Nat.two_pow_pos _
  cases h : (b.getD (i / 32) 0).testBit (i % 32) with
  | false => simp
  | true =>
    simp only [Bool.toNat_true, Nat.one_mul, bne_iff_ne, ne_eq]
    omega

theorem testBit_packFrom_below (bs : List Nat) (j acc n : Nat) (h : n < 8 * j) :
    (packFrom bs j acc).testBit n = acc.testBit n := by
  induction bs generalizing j acc with
  | nil => rfl
  | cons b bs ih =>
    unfold packFrom
    rw [ih (j + 1) _ (by omega), Nat.testBit_or, Nat.testBit_mod_two_pow, Nat.testBit_shiftLeft]
    have : ¬ (n ≥ j * 8) := by omega
    simp [this]

theorem testBit_packFrom (bs : List Nat) (j acc m t x : Nat) (hx : bs[m]? = some x)
    (ht : t < 8) (hlen : j + bs.length ≤ 4) (hacc : ∀ n, 8 * j ≤ n → acc.testBit n = false) :
    (packFrom bs j acc).testBit (8 * (j + m) + t) = (ReverseBits x).testBit t := by
  induction bs generalizing j acc m with
  | nil => simp at hx
  | cons b bs ih =>
    have hlen2 : j + (bs.length + 1) ≤ 4 := by simpa using hlen
    unfold packFrom
    cases m with
    | zero =>
      have hb : b = x := by simpa using hx
      rw [testBit_packFrom_below bs (j + 1) _ _ (by omega), Nat.testBit_or,
        Nat.testBit_mod_two_pow, Nat.testBit_shiftLeft, hacc _ (by omega), hb]
      have h1 : 8 * j + t < 32 := by omega
      have h2 : j * 8 ≤ 8 * j + t := by omega
      have h3 : 8 * j + t - j * 8 = t := by omega
      simp [h1, h2, h3]
    | succ m =>
      have hx2 : bs[m]? = some x := by simpa using hx
      have e : 8 * (j + (m + 1)) + t = 8 * (j + 1 + m) + t := by omega
      rw [e]
      apply ih (j + 1) _ m hx2 (by omega)
      intro n hn
      rw [Nat.testBit_or, Nat.testBit_mod_two_pow, Nat.testBit_shiftLeft, hacc n (by omega),
        testBit_ReverseBits_of_ge b (n - j * 8) (by omega)]
      simp

theorem word_of_NewBitVecFromBytes (bytes : List Nat) (k : Nat) (hk : k < bytes.length) :
    ∃ bs, (NewBitVecFromBytes bytes)[k / 4]? = some (packFrom bs 0 0) ∧
      bs[k % 4]? = bytes[k]? ∧ bs.length ≤ 4 := by
  unfold NewBitVecFromBytes
  by_cases hfull : k / 4 < bytes.length / 4
  · refine ⟨(bytes.drop (k / 4 * 4)).take 4, ?_, ?_, ?_⟩
    · have hget : ((List.range (bytes.length / 4)).map
          fun i => packFrom ((bytes.drop (i * 4)).take 4) 0 0)[k / 4]?
          = some (packFrom ((bytes.drop (k / 4 * 4)).take 4) 0 0) := by
        rw [List.getElem?_map, List.getElem?_range hfull]
        rfl
      by_cases hex : bytes.length % 4 > 0
      · simp only [hex, if_true]
        rw [List.getElem?_append_left (by simpa using hfull)]
        exact hget
      · simp only [hex, if_false]
        exact hget
    · rw [List.getElem?_take_of_lt (Nat.mod_lt _ (by decide)), List.getElem?_drop]
      congr 1
      omega
    · simp only [List.length_take]
      omega
  · have hcw : k / 4 = bytes.length / 4 := by omega
    have hex : bytes.length % 4 > 0 := by omega
    refine ⟨bytes.drop (bytes.length / 4 * 4), ?_, ?_, ?_⟩
    · simp only [hex, if_true]
      rw [List.getElem?_append_right (by simp [hcw])]
      simp [hcw]
    · rw [List.getElem?_drop]
      congr 1
      omega
    · simp only [List.length_drop]
      omega

theorem bitAt_NewBitVecFromBytes (bytes : List Nat) (k j : Nat) (hk : k < bytes.length)
    (hj : j < 8) :
    bitAt (NewBitVecFromBytes bytes) (8 * k + j) = (ReverseBits (bytes.getD k 0)).testBit j := by
  obtain ⟨bs, hw, hbs, hlen⟩ := word_of_NewBitVecFromBytes bytes k hk
  have hdiv : (8 * k + j) / 32 = k / 4 := by omega
  have hmod : (8 * k + j) % 32 = 8 * (0 + k % 4) + j := by omega
  have hxk : bytes[k]? = some (bytes.getD k 0) := by
    rw [List.getD_eq_getElem?_getD, List.getElem?_eq_getElem hk]
    rfl
  rw [bitAt_eq_testBit, hdiv, List.getD_eq_getElem?_getD, hw, Option.getD_some, hmod]
  exact testBit_packFrom bs 0 0 (k % 4) j _ (hbs.trans hxk) hj (by omega) (fun n _ => by simp)

/-- C13. For every byte buffer `b`, every `k < len(b)` and every `j < 8`,
`GetBit` at index `8 · k + j` of `NewBitVecFromBytes(b)` returns bit `j` of
`ReverseBits(b[k])`, which is bit `7 - j` of `b[k]`; and the eight bits
`8 · k, ..., 8 · k + 7` read as a byte, lowest index as lowest bit, give
`ReverseBits(b[k])`. -/
theorem C13_bit_order (b : List Nat) (k j : Nat) (hk : k < b.length) (hj : j < 8) :
    GetBit (NewBitVecFromBytes b) (8 * k + j)
      = Except.ok ((ReverseBits (b.getD k 0)).testBit j) ∧
    (ReverseBits (b.getD k 0)).testBit j = (b.getD k 0).testBit (7 - j) ∧
    readByte (NewBitVecFromBytes b) k = ReverseBits (b.getD k 0) := by
  have hlen : 8 * k + j < Len (NewBitVecFromBytes b) := by
    have := NewBitVecFromBytes_length b
    unfold Len
    omega
  refine ⟨?_, testBit_ReverseBits _ j hj, ?_⟩
  · rw [GetBit_of_lt _ _ hlen, bitAt_NewBitVecFromBytes b k j hk hj]
  · unfold readByte
    have h0 := bitAt_NewBitVecFromBytes b k 0 hk (by decide)
    rw [Nat.add_zero] at h0
    rw [h0, bitAt_NewBitVecFromBytes b k 1 hk (by decide),
      bitAt_NewBitVecFromBytes b k 2 hk (by decide), bitAt_NewBitVecFromBytes b k 3 hk (by decide),
      bitAt_NewBitVecFromBytes b k 4 hk (by decide), bitAt_NewBitVecFromBytes b k 5 hk (by decide),
      bitAt_NewBitVecFromBytes b k 6 hk (by decide), bitAt_NewBitVecFromBytes b k 7 hk (by decide)]
    simp only [Nat.toNat_testBit]
    have := ReverseBits_lt (b.getD k 0)
    omega

/-- C13, at the buffer `0xD5, 0x01, 0x02, 0x03, 0x80`, byte `k = 4` and bit
`j = 0`: the bit read is the top bit of `0x80`. -/
theorem C13_bit_order_witness :
    4 < [213, 1, 2, 3, 128].length ∧ 0 < 8 ∧
    GetBit (NewBitVecFromBytes [213, 1, 2, 3, 128]) (8 * 4 + 0) = Except.ok true ∧
    readByte (NewBitVecFromBytes [213, 1, 2, 3, 128]) 4 = 1 := by
  have h := C13_bit_order [213, 1, 2, 3, 128] 4 0 (by decide) (by decide)
  refine ⟨by decide, by decide, ?_, ?_⟩
  · rw [h.1]
    decide
  · rw [h.2.2]
    decide

end bitvec

namespace paillier

/-- C16 (amended). For every `rangeVal`, every pair `(w1, w2)` retained for a
repetition (the drawn `s = w2[i]` in `[0, third)` and `third + s`, in either
slot) and every `secretX`: the two candidates `secretX + w1`, `secretX + w2`
are never both strictly inside `(third, twoThirds)`; exactly one of them is
inside if and only if `0 < secretX + s < twoThirds` and `secretX + s ≠ third`;
and for `third < secretX < twoThirds` the candidate `secretX + third + s` is
never inside, so exactly one is inside if and only if
`secretX + s < twoThirds`, and none otherwise. -/
theorem C16_masked_candidates (rnd : Draws) (rangeVal secretX : Int) (i : Nat)
    (hw : 0 ≤ rnd.w2 i ∧ rnd.w2 i < rangeVal / 3) :
    ¬ ((rangeVal / 3 < secretX + (drawW rnd (rangeVal / 3) i).1 ∧
          secretX + (drawW rnd (rangeVal / 3) i).1 < 2 * (rangeVal / 3)) ∧
        (rangeVal / 3 < secretX + (drawW rnd (rangeVal / 3) i).2 ∧
          secretX + (drawW rnd (rangeVal / 3) i).2 < 2 * (rangeVal / 3))) ∧
    (((rangeVal / 3 < secretX + (drawW rnd (rangeVal / 3) i).1 ∧
          secretX + (drawW rnd (rangeVal / 3) i).1 < 2 * (rangeVal / 3)) ∨
        (rangeVal / 3 < secretX + (drawW rnd (rangeVal / 3) i).2 ∧
          secretX + (drawW rnd (rangeVal / 3) i).2 < 2 * (rangeVal / 3))) ↔
      0 < secretX + rnd.w2 i ∧ secretX + rnd.w2 i < 2 * (rangeVal / 3) ∧
        secretX + rnd.w2 i ≠ rangeVal / 3) ∧
    (rangeVal / 3 < secretX ∧ secretX < 2 * (rangeVal / 3) →
      ¬ (rangeVal / 3 < secretX + (rangeVal / 3 + rnd.w2 i) ∧
          secretX + (rangeVal / 3 + rnd.w2 i) < 2 * (rangeVal / 3)) ∧
      (((rangeVal / 3 < secretX + (drawW rnd (rangeVal / 3) i).1 ∧
            secretX + (drawW rnd (rangeVal / 3) i).1 < 2 * (rangeVal / 3)) ∨
          (rangeVal / 3 < secretX + (drawW rnd (rangeVal / 3) i).2 ∧
            secretX + (drawW rnd (rangeVal / 3) i).2 < 2 * (rangeVal / 3))) ↔
        secretX + rnd.w2 i < 2 * (rangeVal / 3))) := by
  rcases drawW_cases rnd (rangeVal / 3) i with h | h <;> rw [h] <;> dsimp only <;>
    refine ⟨by omega, ⟨fun hh => by omega, fun hh => by omega⟩, fun hx =>
      ⟨by omega, fun hh => by omega, fun hh => by omega⟩⟩

/-- C16 (amended), at `rangeVal = 9`, `secretX = 4` and the draws
`sampleDraws` (`s = 1`, retained pair `(1, 4)`): of the candidates `5` and `8`
exactly the first is inside `(3, 6)`. -/
theorem C16_masked_candidates_witness :
    ((0 : Int) ≤ sampleDraws.w2 0 ∧ sampleDraws.w2 0 < 9 / 3) ∧
    drawW sampleDraws (9 / 3) 0 = (1, 4) ∧
    ((9 : Int) / 3 < 4 + 1 ∧ (4 : Int) + 1 < 2 * (9 / 3)) ∧
    ¬ ((9 : Int) / 3 < 4 + 4 ∧ (4 : Int) + 4 < 2 * (9 / 3)) ∧
    ¬ (((9 : Int) / 3 < 4 + (drawW sampleDraws (9 / 3) 0).1 ∧
          4 + (drawW sampleDraws (9 / 3) 0).1 < 2 * (9 / 3)) ∧
        ((9 : Int) / 3 < 4 + (drawW sampleDraws (9 / 3) 0).2 ∧
          4 + (drawW sampleDraws (9 / 3) 0).2 < 2 * (9 / 3))) :=
  ⟨by decide, by decide, by decide, by decide,
    (C16_masked_candidates sampleDraws 9 4 0 (by decide)).1⟩

/-- C16 (counterexample). At `rangeVal = 9` (`third = 3`, `twoThirds = 6`),
`secretX = 5` and the retained pair `(5, 2)` (draw `s = 2`, no swap): the
candidates are `10` and `7`, and neither is strictly inside `(3, 6)`. -/
theorem C16_counterexample :
    ((9 : Int) / 3 < 5 ∧ (5 : Int) < 2 * (9 / 3)) ∧
    drawW { w2 := fun _ => 2, coin := fun _ => 1, r1 := fun _ => 2, r2 := fun _ => 3 } (9 / 3) 0
      = (5, 2) ∧
    ¬ ((9 : Int) / 3 < 5 + 5 ∧ (5 : Int) + 5 < 2 * (9 / 3)) ∧
    ¬ ((9 : Int) / 3 < 5 + 2 ∧ (5 : Int) + 2 < 2 * (9 / 3)) := by
  refine ⟨?_, ?_, ?_, ?_⟩ <;> decide

theorem goFor_error_all {α : Type} (f : Nat → Go α) (n : Nat) (p : GoPanic) (hn : 0 < n)
    (h : ∀ i, i < n → f i = Except.error p) : goFor f n = Except.error p := by
  induction n with
  | zero => exact absurd hn (Nat.lt_irrefl 0)
  | succ n ih =>
    rw [goFor_succ]
    cases n with
    | zero =>
      have h0 : goFor f 0 = Except.ok [] := rfl
      rw [h0, bind_ok, h 0 (by decide), bind_error]
    | succ n =>
      rw [ih (Nat.succ_pos n) (fun i hi => h i (Nat.lt_succ_of_lt hi)), bind_error]

theorem GenerateEncryptedPairs_panics (rnd : Draws) (ek : PublicKey) (rangeVal : Int)
    (errorFactor : Nat) (h : 1 ≤ errorFactor) :
    GenerateEncryptedPairs rnd ek rangeVal errorFactor = Except.error GoPanic.nilDereference := by
  unfold GenerateEncryptedPairs GenerateEncryptedPairsWith
  dsimp only
  rw [goFor_error_all _ errorFactor GoPanic.nilDereference h
    (fun i _ => by rw [EncryptWithChosenRandomness_eq, bind_error]), bind_error]

/-- C17 (code defect). For every `rangeVal` with `rangeVal div 3 ≥ 1`, every
`errorFactor` and every outcome of the draws: with an encryption routine that
returns the value of the formula, `GenerateEncryptedPairs` returns six
sequences of length `errorFactor`, and for every `i < errorFactor` one of
`W1[i]`, `W2[i]` is a value `s` with `0 ≤ s < third` and the other is
`third + s`, `0 ≤ R1[i], R2[i] < N`, `C1[i] = Enc(W1[i], R1[i])` and
`C2[i] = Enc(W2[i], R2[i])`; with the source's own
`EncryptWithChosenRandomness` it panics on a nil dereference as soon as
`errorFactor ≥ 1`. -/
theorem C17_GenerateEncryptedPairs_post (enc : PublicKey → Int → Int → Go Int) (rnd : Draws)
    (ek : PublicKey) (rangeVal : Int) (errorFactor : Nat)
    (henc : MeetsContract enc ek) (_hthird : 1 ≤ rangeVal / 3)
    (hd : rnd.Valid ek rangeVal errorFactor) :
    (∃ pairs data,
      GenerateEncryptedPairsWith enc rnd ek rangeVal errorFactor = Except.ok (pairs, data) ∧
      (pairs.C1.length = errorFactor ∧ pairs.C2.length = errorFactor ∧
        data.W1.length = errorFactor ∧ data.W2.length = errorFactor ∧
        data.R1.length = errorFactor ∧ data.R2.length = errorFactor) ∧
      ∀ i, i < errorFactor → ∃ w1 w2 r1 r2 s,
        data.W1[i]? = some w1 ∧ data.W2[i]? = some w2 ∧
        data.R1[i]? = some r1 ∧ data.R2[i]? = some r2 ∧
        (0 ≤ s ∧ s < rangeVal / 3) ∧
        ((w1 = s ∧ w2 = rangeVal / 3 + s) ∨ (w1 = rangeVal / 3 + s ∧ w2 = s)) ∧
        (0 ≤ r1 ∧ r1 < ek.N) ∧ (0 ≤ r2 ∧ r2 < ek.N) ∧
        pairs.C1[i]? = some (encFormula ek.N w1 r1) ∧
        pairs.C2[i]? = some (encFormula ek.N w2 r2)) ∧
    (1 ≤ errorFactor →
      GenerateEncryptedPairs rnd ek rangeVal errorFactor
        = Except.error GoPanic.nilDereference) := by
  refine ⟨⟨honestPairs rnd ek rangeVal errorFactor, honestData rnd rangeVal errorFactor,
    GenerateEncryptedPairsWith_contract enc rnd ek rangeVal errorFactor henc, ?_, ?_⟩,
    GenerateEncryptedPairs_panics rnd ek rangeVal errorFactor⟩
  · simp [honestPairs, honestData]
  · intro i hi
    obtain ⟨hw, _, hr1, hr2⟩ := hd i hi
    refine ⟨(drawW rnd (rangeVal / 3) i).1, (drawW rnd (rangeVal / 3) i).2, rnd.r1 i, rnd.r2 i,
      rnd.w2 i, getElem?_map_range _ _ i hi, getElem?_map_range _ _ i hi,
      getElem?_map_range _ _ i hi, getElem?_map_range _ _ i hi, ⟨hw.1, by omega⟩, ?_, hr1, hr2,
      getElem?_map_range _ _ i hi, getElem?_map_range _ _ i hi⟩
    rcases drawW_cases rnd (rangeVal / 3) i with h | h <;> rw [h]
    · exact Or.inl ⟨rfl, rfl⟩
    · exact Or.inr ⟨rfl, rfl⟩

/-- C17, at `N = 7`, `rangeVal = 9`, two repetitions and the draws
`sampleDraws`: the source's function panics. -/
theorem C17_GenerateEncryptedPairs_post_witness :
    MeetsContract encryptAllocated (PublicKey.mk 7) ∧ (1 : Int) ≤ 9 / 3 ∧
    GenerateEncryptedPairsWith encryptAllocated sampleDraws (PublicKey.mk 7) 9 2
      = Except.ok ({ C1 := [44, 37], C2 := [17, 3] },
          { W1 := [1, 4], W2 := [4, 1], R1 := [2, 2], R2 := [3, 3] }) ∧
    GenerateEncryptedPairs sampleDraws (PublicKey.mk 7) 9 2
      = Except.error GoPanic.nilDereference :=
  ⟨MeetsContract_encryptAllocated _ (by decide), by decide, by decide,
    (C17_GenerateEncryptedPairs_post encryptAllocated sampleDraws (PublicKey.mk 7) 9 2
      (MeetsContract_encryptAllocated _ (by decide)) (by decide) (sampleDraws_valid 2)).2
      (by decide)⟩

end paillier

namespace paillier

theorem proofResponse_spec (ek : PublicKey) (secretX secretR : Int) (bitsOfE : bitvec.BitVec)
    (third twoThirds : Int) (data : DataRandomnessPairs) (i : Nat) (b : Bool)
    (w1 r1 w2 r2 : Int) (hN : ek.N ≠ 0)
    (hbit : bitvec.GetBit bitsOfE i = Except.ok b)
    (hw1 : data.W1[i]? = some w1) (hr1 : data.R1[i]? = some r1)
    (hw2 : data.W2[i]? = some w2) (hr2 : data.R2[i]? = some r2) :
    ∃ response, proofResponse ek secretX secretR bitsOfE third twoThirds data i
        = Except.ok response ∧
      (b = false →
        response = { Open := some { W1 := w1, R1 := r1, W2 := w2, R2 := r2 }, Mask := none }) ∧
      (b = true → response.Open = none ∧ ∃ mk, response.Mask = some mk ∧
        (mk.J = 1 ∨ mk.J = 2) ∧
        (mk.J = 1 ↔ third < secretX + w1 ∧ secretX + w1 < twoThirds) ∧
        (mk.J = 1 → mk.MaskedX = secretX + w1 ∧ mk.MaskedR = secretR * r1 % ek.N) ∧
        (mk.J = 2 → mk.MaskedX = secretX + w2 ∧ mk.MaskedR = secretR * r2 % ek.N)) := by
  unfold proofResponse
  rw [hbit, bind_ok]
  cases b with
  | false =>
    simp only [Bool.not_false, if_true, index_eq_ok _ _ _ hw1, index_eq_ok _ _ _ hr1,
      index_eq_ok _ _ _ hw2, index_eq_ok _ _ _ hr2, bind_ok, pure_eq_ok]
    exact ⟨_, rfl, fun _ => rfl, fun h => (by cases h)⟩
  | true =>
    simp only [Bool.not_true, Bool.false_eq_true, if_false, index_eq_ok _ _ _ hw1,
      index_eq_ok _ _ _ hw2, bind_ok]
    by_cases hin : secretX + w1 > third ∧ secretX + w1 < twoThirds
    · rw [if_pos hin]
      simp only [index_eq_ok _ _ _ hr1, bigMod, newInt, deref, bind_ok, pure_eq_ok, hN, if_false]
      refine ⟨_, rfl, fun h => (by cases h), fun _ => ⟨rfl, _, rfl, Or.inl rfl,
        ⟨fun _ => hin, fun _ => rfl⟩, fun _ => ⟨rfl, rfl⟩, fun h => (by cases h)⟩⟩
    · rw [if_neg hin]
      simp only [index_eq_ok _ _ _ hr2, bigMod, newInt, deref, bind_ok, pure_eq_ok, hN, if_false]
      refine ⟨_, rfl, fun h => (by cases h), fun _ => ⟨rfl, _, rfl, Or.inr rfl,
        ⟨fun h => (by cases h), fun h => absurd h hin⟩, fun h => (by cases h),
        fun _ => ⟨rfl, rfl⟩⟩⟩

/-- C18. For every key with `N ≠ 0`, every challenge holding at least
`errorFactor` bits and retained data of length at least `errorFactor`,
`GenerateProof` returns a proof of exactly `errorFactor` responses; response
`i` is, when challenge bit `i` is 0, an Open carrying
`(W1[i], R1[i], W2[i], R2[i])` verbatim and no Mask, and when bit `i` is 1, a
Mask and no Open with `J` in `{1, 2}`, `MaskedX = secretX + W_J[i]`,
`MaskedR = (secretR · R_J[i]) mod N`, and `J = 1` exactly when
`third < secretX + W1[i] < twoThirds`. -/
theorem C18_GenerateProof_post (ek : PublicKey) (secretX secretR : Int) (e : List Nat)
    (rangeVal : Int) (data : DataRandomnessPairs) (errorFactor : Nat) (hN : ek.N ≠ 0)
    (he : errorFactor ≤ bitvec.Len (bitvec.NewBitVecFromBytes e))
    (hlen : errorFactor ≤ data.W1.length ∧ errorFactor ≤ data.W2.length ∧
      errorFactor ≤ data.R1.length ∧ errorFactor ≤ data.R2.length) :
    ∃ proof, GenerateProof ek secretX secretR e rangeVal data errorFactor = Except.ok proof ∧
      proof.Responses.length = errorFactor ∧
      ∀ i, i < errorFactor → ∃ response w1 r1 w2 r2,
        proof.Responses[i]? = some response ∧
        data.W1[i]? = some w1 ∧ data.R1[i]? = some r1 ∧
        data.W2[i]? = some w2 ∧ data.R2[i]? = some r2 ∧
        (bitvec.GetBit (bitvec.NewBitVecFromBytes e) i = Except.ok false →
          response = { Open := some { W1 := w1, R1 := r1, W2 := w2, R2 := r2 }, Mask := none }) ∧
        (bitvec.GetBit (bitvec.NewBitVecFromBytes e) i = Except.ok true →
          response.Open = none ∧ ∃ mk, response.Mask = some mk ∧
          (mk.J = 1 ∨ mk.J = 2) ∧
          (mk.J = 1 ↔ rangeVal / 3 < secretX + w1 ∧ secretX + w1 < 2 * (rangeVal / 3)) ∧
          (mk.J = 1 → mk.MaskedX = secretX + w1 ∧ mk.MaskedR = secretR * r1 % ek.N) ∧
          (mk.J = 2 → mk.MaskedX = secretX + w2 ∧ mk.MaskedR = secretR * r2 % ek.N)) := by
  have hentry : ∀ i, i < errorFactor → ∃ w1 r1 w2 r2, data.W1[i]? = some w1 ∧
      data.R1[i]? = some r1 ∧ data.W2[i]? = some w2 ∧ data.R2[i]? = some r2 := by
    intro i hi
    exact ⟨_, _, _, _, List.getElem?_eq_getElem (by omega), List.getElem?_eq_getElem (by omega),
      List.getElem?_eq_getElem (by omega), List.getElem?_eq_getElem (by omega)⟩
  have hstep : ∀ i, i < errorFactor → ∃ response,
      proofResponse ek secretX secretR (bitvec.NewBitVecFromBytes e) (rangeVal / 3)
        (2 * (rangeVal / 3)) data i = Except.ok response := by
    intro i hi
    obtain ⟨w1, r1, w2, r2, h1, h2, h3, h4⟩ := hentry i hi
    obtain ⟨response, hr, _⟩ := proofResponse_spec ek secretX secretR _ (rangeVal / 3)
      (2 * (rangeVal / 3)) data i _ w1 r1 w2 r2 hN
      (bitvec.GetBit_of_lt _ i (lt_of_lt_of_le hi he)) h1 h2 h3 h4
    exact ⟨response, hr⟩
  obtain ⟨responses, hgo⟩ := goFor_total _ errorFactor hstep
  obtain ⟨hlen2, hall⟩ := goFor_inv _ _ _ hgo
  refine ⟨{ Responses := responses }, ?_, hlen2, ?_⟩
  · unfold GenerateProof
    dsimp only
    rw [hgo]
    rfl
  · intro i hi
    obtain ⟨w1, r1, w2, r2, h1, h2, h3, h4⟩ := hentry i hi
    obtain ⟨response, hget, hres⟩ := hall i hi
    have hbit := bitvec.GetBit_of_lt (bitvec.NewBitVecFromBytes e) i (lt_of_lt_of_le hi he)
    obtain ⟨response2, hr2, hfalse, htrue⟩ := proofResponse_spec ek secretX secretR _
      (rangeVal / 3) (2 * (rangeVal / 3)) data i _ w1 r1 w2 r2 hN hbit h1 h2 h3 h4
    have heq : response = response2 := by
      rw [hres] at hr2
      injection hr2
    rw [← heq] at hfalse htrue
    refine ⟨response, w1, r1, w2, r2, hget, h1, h2, h3, h4, ?_, ?_⟩
    · intro hb
      rw [hbit] at hb
      injection hb with hb
      exact hfalse hb
    · intro hb
      rw [hbit] at hb
      injection hb with hb
      exact htrue hb

/-- C18, at `N = 7`, `rangeVal = 9`, `secretX = 4`, `secretR = 3`, the
challenge byte `0x40` (bits 0, 1), two repetitions and the retained data
`W1 = [1, 4]`, `W2 = [4, 1]`, `R1 = [2, 2]`, `R2 = [3, 3]`. -/
theorem C18_GenerateProof_post_witness :
    (PublicKey.mk 7).N ≠ 0 ∧ 2 ≤ bitvec.Len (bitvec.NewBitVecFromBytes [64]) ∧
    GenerateProof (PublicKey.mk 7) 4 3 [64] 9
        { W1 := [1, 4], W2 := [4, 1], R1 := [2, 2], R2 := [3, 3] } 2
      = Except.ok { Responses :=
          [{ Open := some { W1 := 1, R1 := 2, W2 := 4, R2 := 3 }, Mask := none },
           { Open := none, Mask := some { J := 2, MaskedX := 5, MaskedR := 2 } }] } ∧
    ∃ proof, GenerateProof (PublicKey.mk 7) 4 3 [64] 9
        { W1 := [1, 4], W2 := [4, 1], R1 := [2, 2], R2 := [3, 3] } 2 = Except.ok proof ∧
      proof.Responses.length = 2 := by
  obtain ⟨proof, h1, h2, _⟩ := C18_GenerateProof_post (PublicKey.mk 7) 4 3 [64] 9
    { W1 := [1, 4], W2 := [4, 1], R1 := [2, 2], R2 := [3, 3] } 2 (by decide) (by decide)
    (by decide)
  exact ⟨by decide, by decide, by decide, proof, h1, h2⟩

/-- C18 as stated fails at the modulus `N = 0`: with `rangeVal = 9`,
`secretX = 4`, `secretR = 3`, the challenge byte `0x80` (bit 0 is 1), one
repetition and the retained data `W1 = [1]`, `W2 = [4]`, `R1 = [2]`,
`R2 = [3]`, the challenge holds at least one bit and the retained data has
length one, and `GenerateProof` panics in `Mod` on the division by zero: it
returns no proof. -/
theorem C18_counterexample :
    1 ≤ bitvec.Len (bitvec.NewBitVecFromBytes [128]) ∧
    bitvec.GetBit (bitvec.NewBitVecFromBytes [128]) 0 = Except.ok true ∧
    (1 ≤ (DataRandomnessPairs.mk [1] [4] [2] [3]).W1.length ∧
      1 ≤ (DataRandomnessPairs.mk [1] [4] [2] [3]).W2.length ∧
      1 ≤ (DataRandomnessPairs.mk [1] [4] [2] [3]).R1.length ∧
      1 ≤ (DataRandomnessPairs.mk [1] [4] [2] [3]).R2.length) ∧
    GenerateProof (PublicKey.mk 0) 4 3 [128] 9 (DataRandomnessPairs.mk [1] [4] [2] [3]) 1
      = Except.error GoPanic.divisionByZero ∧
    ¬ ∃ proof, GenerateProof (PublicKey.mk 0) 4 3 [128] 9
        (DataRandomnessPairs.mk [1] [4] [2] [3]) 1 = Except.ok proof := by
  have h : GenerateProof (PublicKey.mk 0) 4 3 [128] 9 (DataRandomnessPairs.mk [1] [4] [2] [3]) 1
      = Except.error GoPanic.divisionByZero := by decide
  refine ⟨by decide, by decide, by decide, h, ?_⟩
  rintro ⟨proof, hp⟩
  rw [h] at hp
  cases hp

end paillier

namespace paillier

theorem VerifySelfWith_unfold (enc : PublicKey → Int → Int → Go Int)
    (sha256 : List Nat → List Nat) (rpn : RangeProofNi) :
    VerifySelfWith enc sha256 rpn =
      VerifierOutputWith enc rpn.Ek
        (ComputeDigest sha256 ([rpn.Ek.N] ++ rpn.EncryptedPairs.C1 ++ rpn.EncryptedPairs.C2))
        rpn.EncryptedPairs rpn.Proof rpn.RangeVal rpn.Ciphertext rpn.ErrorFactor >>= fun err =>
        if err ≠ none then pure (some GoError.RangeProofError) else pure none := rfl

theorem ProveWith_inv (enc : PublicKey → Int → Int → Go Int) (sha256 : List Nat → List Nat)
    (rnd : Draws) (ek : PublicKey) (rangeVal ciphertext secretX secretR : Int)
    (rpn : RangeProofNi) (err : Option GoError)
    (h : ProveWith enc sha256 rnd ek rangeVal ciphertext secretX secretR = Except.ok (rpn, err)) :
    err = none ∧ rpn.Ek = ek ∧ rpn.RangeVal = rangeVal ∧ rpn.Ciphertext = ciphertext ∧
    rpn.ErrorFactor = SECURITY_PARAMETER ∧
    ∃ data,
      GenerateEncryptedPairsWith enc rnd ek rangeVal SECURITY_PARAMETER
        = Except.ok (rpn.EncryptedPairs, data) ∧
      GenerateProof ek secretX secretR
        (ComputeDigest sha256 ([rpn.Ek.N] ++ rpn.EncryptedPairs.C1 ++ rpn.EncryptedPairs.C2))
        rangeVal data SECURITY_PARAMETER = Except.ok rpn.Proof := by
  unfold ProveWith at h
  cases hg : GenerateEncryptedPairsWith enc rnd ek rangeVal SECURITY_PARAMETER with
  | error p => rw [hg, bind_error] at h; cases h
  | ok pd =>
    obtain ⟨pairs, data⟩ := pd
    rw [hg, bind_ok] at h
    dsimp only at h
    cases hp : GenerateProof ek secretX secretR
        (ComputeDigest sha256 ([ek.N] ++ pairs.C1 ++ pairs.C2)) rangeVal data
        SECURITY_PARAMETER with
    | error p => rw [hp, bind_error] at h; cases h
    | ok proof =>
      rw [hp, bind_ok, pure_eq_ok] at h
      injection h with h
      injection h with h1 h2
      subst h1
      exact ⟨h2.symm, rfl, rfl, rfl, rfl, data, rfl, hp⟩

/-- C11 (amended). For every encryption routine and every transcript:
`VerifySelf` returns nil exactly when `VerifierOutput(Ek, e, EncryptedPairs,
Proof, RangeVal, Ciphertext, ErrorFactor)` returns nil, where
`e = ComputeDigest([Ek.N, C1..., C2...])`; it returns an error exactly when
`VerifierOutput` returns one, and the error is then `RangeProofError`; it
panics exactly when `VerifierOutput` panics; and whenever `Prove` returns a
transcript, the proof in it was built by `GenerateProof` under this same `e`,
with `ErrorFactor = 128`. -/
theorem C11_VerifySelf (enc : PublicKey → Int → Int → Go Int) (sha256 : List Nat → List Nat)
    (rpn : RangeProofNi) :
    (VerifySelfWith enc sha256 rpn = Except.ok none ↔
      VerifierOutputWith enc rpn.Ek
        (ComputeDigest sha256 ([rpn.Ek.N] ++ rpn.EncryptedPairs.C1 ++ rpn.EncryptedPairs.C2))
        rpn.EncryptedPairs rpn.Proof rpn.RangeVal rpn.Ciphertext rpn.ErrorFactor
        = Except.ok none) ∧
    (∀ err, VerifySelfWith enc sha256 rpn = Except.ok (some err) ↔
      err = GoError.RangeProofError ∧ ∃ err', VerifierOutputWith enc rpn.Ek
        (ComputeDigest sha256 ([rpn.Ek.N] ++ rpn.EncryptedPairs.C1 ++ rpn.EncryptedPairs.C2))
        rpn.EncryptedPairs rpn.Proof rpn.RangeVal rpn.Ciphertext rpn.ErrorFactor
        = Except.ok (some err')) ∧
    (∀ p, VerifySelfWith enc sha256 rpn = Except.error p ↔
      VerifierOutputWith enc rpn.Ek
        (ComputeDigest sha256 ([rpn.Ek.N] ++ rpn.EncryptedPairs.C1 ++ rpn.EncryptedPairs.C2))
        rpn.EncryptedPairs rpn.Proof rpn.RangeVal rpn.Ciphertext rpn.ErrorFactor
        = Except.error p) ∧
    (∀ rnd ek rangeVal ciphertext secretX secretR err,
      ProveWith enc sha256 rnd ek rangeVal ciphertext secretX secretR = Except.ok (rpn, err) →
      rpn.ErrorFactor = 128 ∧
      ∃ data,
        GenerateEncryptedPairsWith enc rnd ek rangeVal 128
          = Except.ok (rpn.EncryptedPairs, data) ∧
        GenerateProof ek secretX secretR
          (ComputeDigest sha256 ([rpn.Ek.N] ++ rpn.EncryptedPairs.C1 ++ rpn.EncryptedPairs.C2))
          rangeVal data 128 = Except.ok rpn.Proof) := by
  rw [VerifySelfWith_unfold]
  refine ⟨?_, ?_, ?_, ?_⟩
  · cases hv : VerifierOutputWith enc rpn.Ek
        (ComputeDigest sha256 ([rpn.Ek.N] ++ rpn.EncryptedPairs.C1 ++ rpn.EncryptedPairs.C2))
        rpn.EncryptedPairs rpn.Proof rpn.RangeVal rpn.Ciphertext rpn.ErrorFactor with
    | error p => simp [bind_error]
    | ok r =>
      rw [bind_ok]
      cases r with
      | none => simp [pure_eq_ok]
      | some e' => simp [pure_eq_ok]
  · intro err
    cases hv : VerifierOutputWith enc rpn.Ek
        (ComputeDigest sha256 ([rpn.Ek.N] ++ rpn.EncryptedPairs.C1 ++ rpn.EncryptedPairs.C2))
        rpn.EncryptedPairs rpn.Proof rpn.RangeVal rpn.Ciphertext rpn.ErrorFactor with
    | error p => simp [bind_error]
    | ok r =>
      rw [bind_ok]
      cases r with
      | none => simp [pure_eq_ok]
      | some e' =>
        simp only [ne_eq, not_false_eq_true, if_true, pure_eq_ok, reduceCtorEq]
        constructor
        · intro h
          injection h with h
          injection h with h
          exact ⟨h.symm, e', rfl⟩
        · rintro ⟨h, _⟩
          rw [h]
  · intro p
    cases hv : VerifierOutputWith enc rpn.Ek
        (ComputeDigest sha256 ([rpn.Ek.N] ++ rpn.EncryptedPairs.C1 ++ rpn.EncryptedPairs.C2))
        rpn.EncryptedPairs rpn.Proof rpn.RangeVal rpn.Ciphertext rpn.ErrorFactor with
    | error q => simp [bind_error]
    | ok r =>
      rw [bind_ok]
      cases r with
      | none => simp [pure_eq_ok]
      | some e' => simp [pure_eq_ok]
  · intro rnd ek rangeVal ciphertext secretX secretR err h
    obtain ⟨_, _, _, _, hef, data, hg, hp⟩ :=
      ProveWith_inv enc sha256 rnd ek rangeVal ciphertext secretX secretR rpn err h
    exact ⟨hef, data, hg, hp⟩

/-- C11 (counterexample). With the digest stand-in `zeroDigest`, the transcript
with `ErrorFactor = 1`, no pairs and an empty proof makes the source's
`VerifySelf` panic on the slice index, and the transcript whose one response
is an Open makes it panic in the encryption: in both cases `VerifierOutput`
does not return nil and `VerifySelf` does not return `RangeProofError`. -/
theorem C11_counterexample :
    VerifySelf zeroDigest (RangeProofNi.mk (PublicKey.mk 7) 9 17 { C1 := [], C2 := [] }
      { Responses := [] } 1) = Except.error GoPanic.indexOutOfRange ∧
    VerifySelf zeroDigest (RangeProofNi.mk (PublicKey.mk 7) 9 17 { C1 := [44], C2 := [17] }
      { Responses := [{ Open := some { W1 := 1, R1 := 2, W2 := 4, R2 := 3 }, Mask := none }] } 1)
      = Except.error GoPanic.nilDereference := by
  constructor <;> decide

theorem Prove_panics (sha256 : List Nat → List Nat) (rnd : Draws) (ek : PublicKey)
    (rangeVal ciphertext secretX secretR : Int) :
    Prove sha256 rnd ek rangeVal ciphertext secretX secretR
      = Except.error GoPanic.nilDereference := by
  have h := GenerateEncryptedPairs_panics rnd ek rangeVal SECURITY_PARAMETER (by decide)
  unfold GenerateEncryptedPairs at h
  unfold Prove ProveWith
  rw [h, bind_error]

/-- C12 (code defect). For every key with `N ≥ 1`, every `rangeVal`,
`ciphertext`, `secretX`, `secretR`, every outcome of the draws and a digest
function with 32-byte outputs: with an encryption routine that returns the
value of the formula, `Prove` returns a nil error and a transcript whose
`ErrorFactor` is 128, whose `Ek`, `RangeVal` and `Ciphertext` are the inputs,
and whose proof has 128 responses, the digest giving a vector of 256 bits; with
the source's own `EncryptWithChosenRandomness`, `Prove` panics on a nil
dereference and returns nothing. -/
theorem C12_Prove (enc : PublicKey → Int → Int → Go Int) (sha256 : List Nat → List Nat)
    (rnd : Draws) (ek : PublicKey) (rangeVal ciphertext secretX secretR : Int)
    (henc : MeetsContract enc ek) (hN : 1 ≤ ek.N) (hsha : ∀ bytes, (sha256 bytes).length = 32) :
    (∃ rpn, ProveWith enc sha256 rnd ek rangeVal ciphertext secretX secretR
        = Except.ok (rpn, none) ∧
      rpn.ErrorFactor = 128 ∧ rpn.Ek = ek ∧ rpn.RangeVal = rangeVal ∧
      rpn.Ciphertext = ciphertext ∧ rpn.Proof.Responses.length = 128 ∧
      bitvec.Len (bitvec.NewBitVecFromBytes
        (ComputeDigest sha256 ([ek.N] ++ rpn.EncryptedPairs.C1 ++ rpn.EncryptedPairs.C2)))
        = 256) ∧
    Prove sha256 rnd ek rangeVal ciphertext secretX secretR
      = Except.error GoPanic.nilDereference := by
  have hN0 : 0 < ek.N := hN
  have hlen : ∀ values, bitvec.Len (bitvec.NewBitVecFromBytes (ComputeDigest sha256 values))
      = 256 := by
    intro values
    unfold bitvec.Len
    rw [bitvec.NewBitVecFromBytes_length]
    unfold ComputeDigest
    rw [hsha]
  refine ⟨⟨RangeProofNi.mk ek rangeVal ciphertext
      (honestPairs rnd ek rangeVal SECURITY_PARAMETER)
      (honestProof rnd ek rangeVal secretX secretR
        (ComputeDigest sha256 ([ek.N] ++ (honestPairs rnd ek rangeVal SECURITY_PARAMETER).C1
          ++ (honestPairs rnd ek rangeVal SECURITY_PARAMETER).C2)) SECURITY_PARAMETER)
      SECURITY_PARAMETER, ?_, rfl, rfl, rfl, rfl, ?_, hlen _⟩,
    Prove_panics sha256 rnd ek rangeVal ciphertext secretX secretR⟩
  · unfold ProveWith
    rw [GenerateEncryptedPairsWith_contract enc rnd ek rangeVal SECURITY_PARAMETER henc, bind_ok]
    dsimp only
    rw [GenerateProof_honest rnd ek rangeVal secretX secretR _ SECURITY_PARAMETER
      (ne_of_gt hN0) (by rw [hlen]; decide), bind_ok]
    rfl
  · simp [honestProof, SECURITY_PARAMETER]

/-- C12, at `N = 7`, `rangeVal = 9`, `ciphertext = 17`, `secretX = 4`,
`secretR = 3`, the draws `sampleDraws` and the digest stand-in `zeroDigest`:
the source's `Prove` panics. -/
theorem C12_Prove_witness :
    MeetsContract encryptAllocated (PublicKey.mk 7) ∧ (1 : Int) ≤ (PublicKey.mk 7).N ∧
    (∀ bytes, (zeroDigest bytes).length = 32) ∧
    (∃ rpn, ProveWith encryptAllocated zeroDigest sampleDraws (PublicKey.mk 7) 9 17 4 3
        = Except.ok (rpn, none) ∧ rpn.ErrorFactor = 128 ∧ rpn.Proof.Responses.length = 128) ∧
    Prove zeroDigest sampleDraws (PublicKey.mk 7) 9 17 4 3
      = Except.error GoPanic.nilDereference := by
  have hsha : ∀ bytes, (zeroDigest bytes).length = 32 := fun _ => rfl
  obtain ⟨⟨rpn, h1, h2, _, _, _, h3, _⟩, h4⟩ :=
    C12_Prove encryptAllocated zeroDigest sampleDraws (PublicKey.mk 7) 9 17 4 3
      (MeetsContract_encryptAllocated _ (by decide)) (by decide) hsha
  exact ⟨MeetsContract_encryptAllocated _ (by decide), by decide, hsha, ⟨rpn, h1, h2, h3⟩, h4⟩

end paillier
